import Mathlib

/-!
# Verification of the lol-ext data-synchronization engine

This file gives a shallow embedding, in Lean 4, of the data-synchronization and
recipe-graph reconciliation engine of the `lol-ext` backend
(`backend/app/db/data_manager.py`, `backend/app/db/repositories/*.py`,
`backend/app/services/data_dragon_service.py`), together with theorems that
settle the frozen claims C1–C10 about it.

Modelling conventions:

* Database tables are modelled as `Finset`s of rows (for the raw-SQL code paths,
  where unique constraints make the table a set) or as `List`s of rows (where
  row order / in-memory ORM collection order is observable).
* The `item_recipes` association table is a set of pairs `(item_id, component_id)`;
  per the SQLAlchemy relationship declared on `Item`
  (`primaryjoin id == item_recipes.c.component_id`,
  `secondaryjoin id == item_recipes.c.item_id`, `backref "built_from"`),
  a pair `(p, c)` means `p.built_from ∋ c` and `c.builds_into ∋ p`.
* Python truthiness is modelled explicitly where the source relies on it
  (`None`, `0`, `""` and `[]` are falsy).
* Python float thresholds (`* 0.5`, `* 0.7`) are modelled by exact rational
  comparisons over `Int` (`2*x < y`, `10*x > 7*y`); `0.5` is exactly
  representable so that comparison is exact, and every concrete input used in a
  theorem below is far from the `0.7` rounding boundary.
* `Optional[List[str]]` fields whose every use is guarded by `x or []` or by a
  truthiness test (`from_`, `into`) are modelled as plain lists, since `None`
  and `[]` are indistinguishable in the source.
-/

namespace LolExt

/-! ## Version ledger (`game_versions` table)

Embeds `GameVersion` rows and the two operations
`DataDragonManager.set_current_version` / `VersionedRepository.set_current_version`
(textually identical logic) and
`DataDragonManager.get_current_db_version` / `VersionedRepository.get_current_version`.
The autoincrement primary key is modelled by `freshId` (one more than the
largest id in the table); `release_date` is not modelled (no claim reads it). -/

structure LedgerRow where
  rowId : Nat
  version : String
  entityType : String
  isCurrent : Bool
  deriving DecidableEq, Repr

/-- Fresh autoincrement id: one more than the maximum id present. -/
def freshId (rows : List LedgerRow) : Nat :=
  (rows.map (·.rowId)).foldr max 0 + 1

/-- Effect, on one row, of `UPDATE game_versions SET is_current=false
WHERE entity_type = et AND is_current = true`. -/
def unsetOne (et : String) (r : LedgerRow) : LedgerRow :=
  if r.entityType = et ∧ r.isCurrent then { r with isCurrent := false } else r

/-- Step 1 of `set_current_version`: unset any current rows for the family. -/
def unsetCurrent (rows : List LedgerRow) (et : String) : List LedgerRow :=
  rows.map (unsetOne et)

/-- Effect, on one row, of `UPDATE game_versions SET is_current=true WHERE id = rid`. -/
def markCurrentById (rid : Nat) (s : LedgerRow) : LedgerRow :=
  if s.rowId = rid then { s with isCurrent := true } else s

/-- `SELECT ... WHERE entity_type = et AND version = v`, `.first()`. -/
def findVersionRow (rows : List LedgerRow) (v et : String) : Option LedgerRow :=
  rows.find? fun r => r.entityType == et && r.version == v

/-- `DataDragonManager.set_current_version` (= `VersionedRepository.set_current_version`):
unset any current rows for the family, then either mark the existing
`(version, entity_type)` row current (update by primary key id) or insert a new
current row. -/
def setCurrentVersion (rows : List LedgerRow) (v et : String) : List LedgerRow :=
  match findVersionRow (unsetCurrent rows et) v et with
  | some r => (unsetCurrent rows et).map (markCurrentById r.rowId)
  | none => unsetCurrent rows et ++ [⟨freshId (unsetCurrent rows et), v, et, true⟩]

/-- `DataDragonManager.get_current_db_version` (= `VersionedRepository.get_current_version`):
`SELECT version WHERE entity_type = et AND is_current = true`, `.first()`. -/
def getCurrentDbVersion (rows : List LedgerRow) (et : String) : Option String :=
  (rows.find? fun r => r.entityType == et && r.isCurrent).map (·.version)

/-- Number of rows marked current for a family (the ledger-exclusivity measure). -/
def countCurrent (rows : List LedgerRow) (et : String) : Nat :=
  (rows.filter fun r => r.entityType == et && r.isCurrent).length

/-! ## Upstream records and persisted entities -/

/-- Upstream item record (pydantic `Item` schema in `data_dragon_service.py` /
the raw `item.json` record in `data_manager.py`). Only fields read by the sync
and recipe engine are modelled. `from` / `into` are `Optional[List[str]]`
upstream, but every read in the source is `x or []` or a truthiness test, under
which `None` and `[]` are indistinguishable, so they are plain lists here. -/
structure ItemRec where
  tags : List String
  into : List String
  from_ : List String
  goldTotal : Int
  depth : Option Int
  deriving DecidableEq, Repr

/-- Persisted `Item` row fields read by the recipe engine; `tags` holds the tag
names linked through `item_tags`. -/
structure ItemEntity where
  tags : List String
  tier : Option Int
  totalGold : Option Int
  deriving DecidableEq, Repr

/-- Python truthiness of `x and x > bound` for an optional integer column. -/
def truthyGoldGT (g : Option Int) (bound : Int) : Bool :=
  match g with
  | some x => if x ≠ 0 ∧ bound < x then true else false
  | none => false

/-- Python truthiness of `x and x >= bound` for an optional integer column. -/
def truthyTierGE (t : Option Int) (bound : Int) : Bool :=
  match t with
  | some x => if x ≠ 0 ∧ bound ≤ x then true else false
  | none => false

/-- Python truthiness of `x and x <= bound` for an optional integer column. -/
def truthyTierLE (t : Option Int) (bound : Int) : Bool :=
  match t with
  | some x => if x ≠ 0 ∧ x ≤ bound then true else false
  | none => false

/-- `x.total_gold or 0`. -/
def goldOrZero (it : ItemEntity) : Int :=
  match it.totalGold with
  | some g => g
  | none => 0

/-- Mythic classification from the upstream record, as in
`ItemRepository.process_item_recipes`: a tag named mythic/legendary
(case-insensitive), or `gold.total > 2500`, or truthy `depth >= 3`. -/
def recordIsMythic (rec : ItemRec) : Bool :=
  if (¬rec.tags.isEmpty) ∧ rec.tags.any
      (fun t => t.toLower == "mythic" || t.toLower == "legendary") then true
  else if 2500 < rec.goldTotal then true
  else match rec.depth with
    | some d => if d ≠ 0 ∧ 3 ≤ d then true else false
    | none => false

/-- Mythic classification from the persisted entity, as in
`validate_mythic_item_build_paths` / `ensure_mythic_item_build_paths`. -/
def entityIsMythic (it : ItemEntity) : Bool :=
  if (¬it.tags.isEmpty) ∧ it.tags.any
      (fun t => t.toLower == "mythic" || t.toLower == "legendary") then true
  else if truthyGoldGT it.totalGold 2500 then true
  else truthyTierGE it.tier 3

/-! ## `DataDragonManager.update_items` (raw-SQL sync path)

State touched by one `update_items` run: the `items` table (keyed by id), the
`tags` table (unique names), the `item_tags` junction (modelled as
`(item_id, tag_name)` pairs — tag ids are in bijection with names), the
`item_recipes` edge table, and the version ledger. A pair `(p, c)` in `edges`
is the row `(item_id = p, component_id = c)`, which the SQLAlchemy
relationships on `Item` read as `p.built_from ∋ c` and `c.builds_into ∋ p`.
The per-item `try/except` path is not modelled: the theorems below are about
executions in which no record raises. -/

structure ItemsDb where
  items : Finset String
  tagNames : Finset String
  itemTagLinks : Finset (String × String)
  edges : Finset (String × String)
  ledger : List LedgerRow
  deriving DecidableEq

/-- The recipe-edge inserts performed while processing one item `i`:
`(item_id=i, component_id=p)` for each `p` in the record's `into` list that
exists in the `items` table, and `(item_id=f, component_id=i)` for each `f` in
its `from` list that exists (`data_manager.py` lines 680–708). -/
def recipeInserts (i : String) (rec : ItemRec) (items : Finset String) :
    Finset (String × String) :=
  ((rec.into.filter (fun p => p ∈ items)).map (fun p => (i, p))).toFinset ∪
    ((rec.from_.filter (fun f => f ∈ items)).map (fun f => (f, i))).toFinset

/-- Processing of one `(item_id, record)` pair in `update_items`: upsert the
item row, replace its tag links (delete-then-insert), delete every recipe edge
touching the item, then insert the edges derived from its `into`/`from` lists
(existence-checked against the current `items` table, which already contains
the item itself). -/
def updateItemsStep (s : ItemsDb) (x : String × ItemRec) : ItemsDb :=
  let items := insert x.1 s.items
  { items := items
    tagNames := x.2.tags.foldl (fun ts t => insert t ts) s.tagNames
    itemTagLinks := s.itemTagLinks.filter (fun l => l.1 ≠ x.1)
      ∪ (x.2.tags.map (fun t => (x.1, t))).toFinset
    edges := s.edges.filter (fun e => ¬(e.1 = x.1 ∨ e.2 = x.1))
      ∪ recipeInserts x.1 x.2 items
    ledger := s.ledger }

/-- `DataDragonManager.update_items`: process every record of the payload in
order, then set the current ledger version for the `items` family. -/
def updateItems (payload : List (String × ItemRec)) (version : String) (s : ItemsDb) :
    ItemsDb :=
  let s1 := payload.foldl updateItemsStep s
  { s1 with ledger := setCurrentVersion s1.ledger version "items" }

/-- `built_from` as read through the `Item.builds_into`/`built_from`
relationships (and serialized by `ItemDetail.from_orm` as `buildsFrom`):
the components of the rows whose `item_id` is `i`. -/
def builtFrom (E : Finset (String × String)) (i : String) : Finset String :=
  (E.filter (fun e => e.1 = i)).image (fun e => e.2)

/-- `builds_into` as read through the ORM relationship: the products of the
rows whose `component_id` is `i`. -/
def buildsInto (E : Finset (String × String)) (i : String) : Finset String :=
  (E.filter (fun e => e.2 = i)).image (fun e => e.1)

/-- Recipe tree returned by `ItemRepository.get_item_tree`. -/
inductive RecipeTree where
  | node (id : String) (components : List RecipeTree) (intoTrees : List RecipeTree)
  deriving Repr

/-- `ItemRepository.get_item_tree`: `None` for a missing item; at depth 0 the
component/builds-into lists are not expanded; at depth `d+1` each related item
is expanded at depth `d` (related ids enumerated in sorted order — the ORM
collection order is unspecified). -/
def getItemTree (E : Finset (String × String)) (items : Finset String) (i : String) :
    Nat → Option RecipeTree
  | 0 => if i ∈ items then some (.node i [] []) else none
  | d + 1 =>
      if i ∈ items then
        some (.node i
          (((builtFrom E i).sort (· ≤ ·)).filterMap fun c => getItemTree E items c d)
          (((buildsInto E i).sort (· ≤ ·)).filterMap fun p => getItemTree E items p d))
      else none

/-- Root item id of a recipe tree. -/
def treeRootId : RecipeTree → String
  | .node i _ _ => i

/-- The ids listed under a recipe tree's components (`builds_from`). -/
def treeComponentIds : RecipeTree → List String
  | .node _ comps _ => comps.map treeRootId

/-! ## `DataDragonManager.update_champions`

The champion batch loop with its per-champion `try/except`: a record with
`valid = false` stands for one whose processing raises (e.g. malformed nested
data). The handler logs the error and calls `session.rollback()`, which
discards all uncommitted work — i.e. resets the working state to the state at
the last commit, which is the state at entry (`update_champions` commits only
once, at the end). The returned `Nat` counts logged per-champion errors. -/

structure ChampRec where
  tags : List String
  valid : Bool
  deriving DecidableEq, Repr

structure ChampDb where
  champions : Finset String
  tagNames : Finset String
  champTagLinks : Finset (String × String)
  ledger : List LedgerRow
  deriving DecidableEq

/-- Successful processing of one champion: upsert the row, delete its tag
links, re-insert the links for the record's tags (creating tags lazily). -/
def upsertChampion (s : ChampDb) (cid : String) (rec : ChampRec) : ChampDb :=
  { champions := insert cid s.champions
    tagNames := rec.tags.foldl (fun ts t => insert t ts) s.tagNames
    champTagLinks := s.champTagLinks.filter (fun l => l.1 ≠ cid)
      ∪ (rec.tags.map (fun t => (cid, t))).toFinset
    ledger := s.ledger }

/-- `DataDragonManager.update_champions` on a fetched batch, starting from a
committed state `db0`: per-champion failures roll the working state back to
`db0` and are counted; at the end the ledger is updated and the transaction is
committed (the returned state is the committed one). -/
def updateChampions (payload : List (String × ChampRec)) (version : String)
    (db0 : ChampDb) : ChampDb × Nat :=
  let wr := payload.foldl
    (fun (acc : ChampDb × Nat) x =>
      if x.2.valid then (upsertChampion acc.1 x.1 x.2, acc.2) else (db0, acc.2 + 1))
    (db0, 0)
  ({ wr.1 with ledger := setCurrentVersion wr.1.ledger version "champions" }, wr.2)

/-! ## `ItemRepository.process_item_recipes` (ORM sync path)

Here recipe edges live in ORM collections; `builds_into` and `built_from` are
two views of one association list (the `backref` keeps them in sync), so the
state is a single list `E` of `(item_id = product, component_id = component)`
pairs to which the passes append. `process_item_recipes` first clears the
whole `item_recipes` table, so its edge state starts at `[]`. -/

/-- `item.built_from` for the list-backed ORM state. -/
def builtFromL (E : List (String × String)) (i : String) : List String :=
  (E.filter (fun e => e.1 == i)).map (fun e => e.2)

/-- `item.builds_into` for the list-backed ORM state. -/
def buildsIntoL (E : List (String × String)) (i : String) : List String :=
  (E.filter (fun e => e.2 == i)).map (fun e => e.1)

/-- The `builds_into` loop of the first pass for item `a`:
`item.builds_into.append(into_item)` appends the edge `(p, a)` for each `into`
target `p` present in `all_items`. -/
def appendIntoEdges (allItems : List (String × ItemEntity)) (a : String)
    (E : List (String × String)) (l : List String) : List (String × String) :=
  l.foldl (fun acc p =>
    match allItems.lookup p with
    | some _ => acc ++ [(p, a)]
    | none => acc) E

/-- The `built_from` loop for item `a`: `item.built_from.append(from_item)`
appends the edge `(a, c)` for each `from` entry `c` present in `all_items`. -/
def appendFromEdges (allItems : List (String × ItemEntity)) (a : String)
    (E : List (String × String)) (l : List String) : List (String × String) :=
  l.foldl (fun acc c =>
    match allItems.lookup c with
    | some _ => acc ++ [(a, c)]
    | none => acc) E

/-- First pass of `process_item_recipes` for one record: skip records whose
item is not in `all_items`; append its `into` edges, then its `from` edges. -/
def firstPassStep (allItems : List (String × ItemEntity)) (E : List (String × String))
    (x : String × ItemRec) : List (String × String) :=
  match allItems.lookup x.1 with
  | none => E
  | some _ =>
      appendFromEdges allItems x.1 (appendIntoEdges allItems x.1 E x.2.into) x.2.from_

/-- First (clear-and-rebuild) pass of `process_item_recipes` over the batch. -/
def firstPass (allItems : List (String × ItemEntity))
    (itemsData : List (String × ItemRec)) : List (String × String) :=
  itemsData.foldl (firstPassStep allItems) []

/-- `builds_from_map[k].append(v)`, creating the key on first use (Python dict
insertion order preserved). -/
def addRev (m : List (String × List String)) (k v : String) : List (String × List String) :=
  match m with
  | [] => [(k, [v])]
  | (k1, vs) :: rest => if k1 = k then (k1, vs ++ [v]) :: rest else (k1, vs) :: addRev rest k v

/-- The reverse index built from `into` lists: `product_id ↦ [component_ids]`. -/
def buildsFromMap (itemsData : List (String × ItemRec)) : List (String × List String) :=
  itemsData.foldl (fun m x => x.2.into.foldl (fun m1 p => addRev m1 p x.1) m) []

/-- `potential_components` of the in-loop mythic heuristic: other items that
are not high tier (truthy `tier >= 3`) and have truthy `tier <= 2`. -/
def potentialComponents (allItems : List (String × ItemEntity)) (P : String) :
    List String :=
  allItems.foldl (fun acc x =>
    if x.1 = P ∨ truthyTierGE x.2.tier 3 then acc
    else if truthyTierLE x.2.tier 2 then acc ++ [x.1]
    else acc) []

/-- Stable insertion keeping strictly-greater golds first: an element is placed
before the first strictly smaller key, so equal keys keep encounter order —
the behaviour of Python's stable `sorted(..., reverse=True)`. -/
def insertByGoldDesc (x : String × ItemEntity) :
    List (String × ItemEntity) → List (String × ItemEntity)
  | [] => [x]
  | y :: ys => if goldOrZero y.2 < goldOrZero x.2 then x :: y :: ys
      else y :: insertByGoldDesc x ys

/-- `sorted(l, key=lambda x: x[1].total_gold or 0, reverse=True)`. -/
def sortByGoldDesc (l : List (String × ItemEntity)) : List (String × ItemEntity) :=
  l.foldl (fun acc x => insertByGoldDesc x acc) []

/-- The in-loop heuristic of `process_item_recipes` (lines 296–320): rank the
potential components by descending gold and append up to 3 whose truthy gold is
below the mythic's truthy gold. -/
def deadHeuristicAppend (allItems : List (String × ItemEntity)) (P : String)
    (Pent : ItemEntity) (E : List (String × String)) : List (String × String) :=
  let pot := potentialComponents allItems P
  if pot.isEmpty then E
  else
    let sorted := sortByGoldDesc (pot.filterMap fun c =>
      (allItems.lookup c).map (fun ent => (c, ent)))
    (sorted.take 3).foldl (fun acc y =>
      match y.2.totalGold, Pent.totalGold with
      | some cg, some pg => if cg ≠ 0 ∧ pg ≠ 0 ∧ cg < pg then acc ++ [(P, y.1)] else acc
      | _, _ => acc) E

/-- One entry of the asymmetry-repair pass of `process_item_recipes`: for a
product `P` with reverse-index candidates `comps`, if (`P`'s record has no
`from` list and `comps` is non-empty and `P` has no `built_from` edges) or
(`P` is record-mythic and has no `built_from` edges), append each candidate
present in `all_items` and not already a component; then, for a record-mythic
`P` with no candidates and still no components, run the gold heuristic. -/
def repairStep (allItems : List (String × ItemEntity))
    (itemsData : List (String × ItemRec)) (E : List (String × String))
    (entry : String × List String) : List (String × String) :=
  match allItems.lookup entry.1 with
  | none => E
  | some Pent =>
    match itemsData.lookup entry.1 with
    | none => E
    | some rec =>
        let hasFromInApi := ¬rec.from_.isEmpty
        let isMythic := recordIsMythic rec
        let E1 :=
          if (¬hasFromInApi ∧ ¬entry.2.isEmpty ∧ (builtFromL E entry.1).isEmpty)
              ∨ (isMythic ∧ (builtFromL E entry.1).isEmpty) then
            entry.2.foldl (fun acc c =>
              match allItems.lookup c with
              | some _ => if c ∈ builtFromL acc entry.1 then acc else acc ++ [(entry.1, c)]
              | none => acc) E
          else E
        if isMythic ∧ entry.2.isEmpty ∧ (builtFromL E1 entry.1).isEmpty then
          deadHeuristicAppend allItems entry.1 Pent E1
        else E1

/-- `ItemRepository.process_item_recipes`: clear the edge table, run the
rebuild pass from the upstream `from`/`into` lists, then the asymmetry-repair
pass over the reverse index. -/
def processItemRecipes (allItems : List (String × ItemEntity))
    (itemsData : List (String × ItemRec)) : List (String × String) :=
  (buildsFromMap itemsData).foldl (repairStep allItems itemsData)
    (firstPass allItems itemsData)

/-! ## `ItemRepository.ensure_mythic_item_build_paths` -/

/-- Truthy `other.tier and item.tier and other.tier == item.tier`. -/
def sameTruthyTier (a b : Option Int) : Bool :=
  match a, b with
  | some x, some y => if x ≠ 0 ∧ y ≠ 0 ∧ x = y then true else false
  | _, _ => false

/-- `sum(c.total_gold or 0 for c in item.built_from)`. -/
def builtFromGoldSum (allItems : List (String × ItemEntity))
    (E : List (String × String)) (P : String) : Int :=
  ((builtFromL E P).map fun c =>
    match allItems.lookup c with
    | some ent => goldOrZero ent
    | none => 0).sum

/-- The greedy attach loop of the basic-components branch: append each of the
up-to-3 candidates in turn and stop as soon as the attached components' summed
gold exceeds 70% of the mythic's gold (`*0.7` modelled exactly as `7·pg < 10·sum`;
the Python float product can differ only on the exact boundary). -/
def greedyAttachAux (allItems : List (String × ItemEntity)) (P : String) (pg : Int) :
    List (String × ItemEntity) → List (String × String) → List (String × String)
  | [], E => E
  | y :: rest, E =>
      let E1 := E ++ [(P, y.1)]
      if 7 * pg < 10 * builtFromGoldSum allItems E1 P then E1
      else greedyAttachAux allItems P pg rest E1

/-- `similar_items`: other items with the same truthy tier and a non-empty
`built_from`. -/
def similarItems (allItems : List (String × ItemEntity)) (P : String)
    (Pent : ItemEntity) (E : List (String × String)) : List (String × ItemEntity) :=
  allItems.foldl (fun acc x =>
    if x.1 = P then acc
    else if sameTruthyTier x.2.tier Pent.tier ∧ ¬(builtFromL E x.1).isEmpty then acc ++ [x]
    else acc) []

/-- Fixing one mythic item in `ensure_mythic_item_build_paths`: skip if it
already has components; first replay a non-empty `from_` list; else copy
suitable components (truthy gold `< 0.6 ×` the mythic's truthy gold, modelled
exactly as `5·cg < 3·pg`) from same-tier items that have components; else rank
other truthy-tier-≤2 items with truthy gold `< 0.5 ×` the mythic's truthy gold
(exactly `2·og < pg`) by descending gold and greedily attach up to 3 with the
70% early stop. Python iterates `potential_components` as a `set` (unspecified
order); `eraseDups` fixes one order, and no downstream read is order-sensitive
in that branch. -/
def ensureMythicStep (allItems : List (String × ItemEntity))
    (itemsData : List (String × ItemRec)) (E : List (String × String)) (P : String) :
    List (String × String) :=
  match allItems.lookup P with
  | none => E
  | some Pent =>
    if ¬(builtFromL E P).isEmpty then E
    else match itemsData.lookup P with
    | none => E
    | some rec =>
        if ¬rec.from_.isEmpty then
          appendFromEdges allItems P E rec.from_
        else
          let sims := similarItems allItems P Pent E
          if ¬sims.isEmpty then
            let pot := (sims.foldl (fun acc s => acc ++ builtFromL E s.1) []).eraseDups
            pot.foldl (fun acc c =>
              match allItems.lookup c with
              | some ent =>
                  match ent.totalGold, Pent.totalGold with
                  | some cg, some pg =>
                      if cg ≠ 0 ∧ pg ≠ 0 ∧ 5 * cg < 3 * pg then acc ++ [(P, c)] else acc
                  | _, _ => acc
              | none => acc) E
          else
            let basics := allItems.foldl (fun acc x =>
              if x.1 = P then acc
              else match x.2.tier with
                | none => acc
                | some t =>
                    if t = 0 then acc
                    else if 2 < t then acc
                    else match x.2.totalGold, Pent.totalGold with
                      | some og, some pg =>
                          if og ≠ 0 ∧ pg ≠ 0 ∧ 2 * og < pg then acc ++ [x] else acc
                      | _, _ => acc) []
            greedyAttachAux allItems P (goldOrZero Pent) ((sortByGoldDesc basics).take 3) E

/-- `ItemRepository.ensure_mythic_item_build_paths`: classify mythics from the
entities, then fix each in `all_items` order. -/
def ensureMythicItemBuildPaths (allItems : List (String × ItemEntity))
    (itemsData : List (String × ItemRec)) (E : List (String × String)) :
    List (String × String) :=
  ((allItems.filter fun x => entityIsMythic x.2).map (fun x => x.1)).foldl
    (ensureMythicStep allItems itemsData) E

/-- The recipe phases of `ItemRepository.bulk_sync_items` after entity upserts:
`process_item_recipes` (pass 2), the read-only validation (pass 3, no state),
then `ensure_mythic_item_build_paths` (pass 4). -/
def bulkSyncRecipePhases (allItems : List (String × ItemEntity))
    (itemsData : List (String × ItemRec)) : List (String × String) :=
  ensureMythicItemBuildPaths allItems itemsData (processItemRecipes allItems itemsData)

/-- Truthless tier bound used by the spec-side function below (the claim's
words say only "tier ≤ 2"). -/
def specTierLE2 (t : Option Int) : Bool :=
  match t with
  | some x => if x ≤ 2 then true else false
  | none => false

/-- Greedy attachment loop written from the words of claim C5: attach each of
the given candidates whose individual cost is below the mythic's total cost,
stopping once the attached sum exceeds 70% of it. -/
def specAttach (pg : Int) : List (String × ItemEntity) → Int → List String
  | [], _ => []
  | y :: rest, acc =>
      if goldOrZero y.2 < pg then
        let acc1 := acc + goldOrZero y.2
        if 7 * pg < 10 * acc1 then [y.1]
        else y.1 :: specAttach pg rest acc1
      else specAttach pg rest acc

/-- The heuristic exactly as claim C5 states it (spec-side definition, for
comparison with the code): scan all other items with tier ≤ 2, rank by
descending total gold, greedily attach the top 3 whose individual total cost is
less than the mythic's total cost, stopping early once the attached sum exceeds
70% of the mythic's total cost. -/
def specInferredComponents (allItems : List (String × ItemEntity)) (P : String)
    (pg : Int) : List String :=
  specAttach pg
    ((sortByGoldDesc (allItems.filter fun x => x.1 ≠ P ∧ specTierLE2 x.2.tier)).take 3) 0

/-- Python truthiness of `other.total_gold and item.total_gold and
other.total_gold < item.total_gold * 0.5` (exactly `2·a < b`). -/
def truthyGoldLTHalf (g pg : Option Int) : Bool :=
  match g, pg with
  | some a, some b => if a ≠ 0 ∧ b ≠ 0 ∧ 2 * a < b then true else false
  | _, _ => false

/-- Greedy attachment loop written from the words of the AMENDED claim C5:
attach each given candidate in turn and stop once the attached components'
summed cost exceeds 70% of the mythic's total cost. -/
def specAttachUncond (pg : Int) : List (String × ItemEntity) → Int → List String
  | [], _ => []
  | y :: rest, acc =>
      let acc1 := acc + goldOrZero y.2
      if 7 * pg < 10 * acc1 then [y.1]
      else y.1 :: specAttachUncond pg rest acc1

/-- The heuristic as the AMENDED claim C5 states it (spec-side definition):
scan all other items with truthy tier ≤ 2 and truthy total cost below half the
mythic's total cost, rank them by descending total cost, and greedily attach up
to the top 3, stopping once the attached sum exceeds 70% of the mythic's total
cost. -/
def specInferredComponentsHalf (allItems : List (String × ItemEntity)) (P : String)
    (Pent : ItemEntity) : List String :=
  specAttachUncond (goldOrZero Pent)
    ((sortByGoldDesc (allItems.filter fun x =>
      ¬x.1 = P ∧ truthyTierLE x.2.tier 2
        ∧ truthyGoldLTHalf x.2.totalGold Pent.totalGold)).take 3) 0

/-! ## `DataDragonService.get_latest_version` -/

structure ServiceState where
  latestVersion : Option String
  deriving DecidableEq, Repr

/-- Python truthiness of `self._latest_version`. -/
def pyTruthyStr : Option String → Bool
  | some s => ¬s.isEmpty
  | none => false

/-- `DataDragonService.get_latest_version`, with the upstream `versions.json`
array given as input. Returns the version, the next service state, and whether
an HTTP request was issued. -/
def getLatestVersion (st : ServiceState) (upstream : List String) :
    Except String (String × ServiceState × Bool) :=
  if pyTruthyStr st.latestVersion then
    Except.ok (st.latestVersion.getD "", st, false)
  else
    match upstream with
    | [] => Except.error "Invalid version data format"
    | v :: _ => Except.ok (v, ⟨some v⟩, true)

/-! ## Sub-entity pruning (`RuneRepository.create_or_update_runes`,
`ChampionRepository._update_champion_skins`, champion spell upserts) -/

structure RuneRow where
  id : Nat
  slotId : Nat
  version : String
  deriving DecidableEq, Repr

structure RuneData where
  id : Nat
  deriving DecidableEq, Repr

/-- `RuneRepository.create_or_update_runes` on the runes table: upsert each
payload rune (skipping falsy ids) into the slot, then delete the slot's runes
whose id was not seen in the payload. -/
def createOrUpdateRunes (rows : List RuneRow) (slotId : Nat) (rd : List RuneData)
    (version : String) : List RuneRow :=
  let existingIds := (rows.filter fun r => r.slotId == slotId).map (·.id)
  let processed := (rd.filter fun d => d.id != 0).map (·.id)
  let rows1 := rd.foldl (fun acc d =>
    if d.id = 0 then acc
    else if d.id ∈ existingIds then
      acc.map fun r => if r.id = d.id then { r with slotId := slotId, version := version } else r
    else acc ++ [⟨d.id, slotId, version⟩]) rows
  rows1.filter fun r => ¬(r.id ∈ existingIds ∧ r.id ∉ processed)

structure SkinRow where
  championId : String
  skinNum : Nat
  skinId : String
  name : String
  deriving DecidableEq, Repr

structure SkinData where
  id : String
  num : Nat
  name : String
  deriving DecidableEq, Repr

/-- `ChampionRepository._update_champion_skins`: upsert each payload skin by
`(champion_id, skin_num)`, then delete the champion's skins whose `skin_num`
is absent from the payload. -/
def updateChampionSkins (rows : List SkinRow) (champ : String) (skins : List SkinData) :
    List SkinRow :=
  let existingNums := (rows.filter fun r => r.championId == champ).map (·.skinNum)
  let updatedNums := skins.map (·.num)
  let rows1 := skins.foldl (fun acc d =>
    if d.num ∈ existingNums then
      acc.map fun r =>
        if r.championId = champ ∧ r.skinNum = d.num then
          { r with skinId := d.id, name := d.name }
        else r
    else acc ++ [⟨champ, d.num, d.id, d.name⟩]) rows
  rows1.filter fun r => ¬(r.championId = champ ∧ r.skinNum ∈ existingNums
    ∧ r.skinNum ∉ updatedNums)

inductive SpellSlot where
  | Q | W | E | R
  deriving DecidableEq, Repr

structure SpellRow where
  championId : String
  slot : SpellSlot
  spellId : String
  name : String
  deriving DecidableEq, Repr

structure SpellData where
  id : String
  name : String
  deriving DecidableEq, Repr

/-- The champion-spell portion of
`ChampionRepository.create_or_update_champion_from_api` (lines 184–195) with
`_update_champion_spell`: the first four payload spells are upserted into the
ability slots Q/W/E/R by position; nothing is ever deleted. -/
def updateChampionSpells (rows : List SpellRow) (champ : String)
    (spells : List SpellData) : List SpellRow :=
  ((spells.take 4).zip [SpellSlot.Q, SpellSlot.W, SpellSlot.E, SpellSlot.R]).foldl
    (fun acc y =>
      match acc.find? (fun r => r.championId == champ && decide (r.slot = y.2)) with
      | some _ => acc.map fun r =>
          if r.championId = champ ∧ r.slot = y.2 then
            { r with spellId := y.1.id, name := y.1.name }
          else r
      | none => acc ++ [⟨champ, y.2, y.1.id, y.1.name⟩]) rows

/-! ## Proof-infrastructure folds

Projections of the sync folds onto single state components, used to analyse
idempotence of `update_items` / `update_champions` componentwise. -/

/-- The `(items, edges)` component of `updateItemsStep`. -/
def edgeStep (s : Finset String × Finset (String × String)) (x : String × ItemRec) :
    Finset String × Finset (String × String) :=
  let items := insert x.1 s.1
  (items, s.2.filter (fun e => ¬(e.1 = x.1 ∨ e.2 = x.1)) ∪ recipeInserts x.1 x.2 items)

/-- The tag-link component of one entity's processing (shared by the champion
and item paths): delete the entity's links, insert the payload's links. -/
def linkStep (L : Finset (String × String)) (x : String × List String) :
    Finset (String × String) :=
  L.filter (fun l => l.1 ≠ x.1) ∪ (x.2.map (fun t => (x.1, t))).toFinset

/-! ## Proof-infrastructure predicates -/

/-- Soundness invariant of the reverse index: every entry is non-empty and
every listed candidate `A` of a product `P` comes from a record of the payload
`D` that declares `P` in its `into` list. -/
def RevOK (D : List (String × ItemRec)) (m : List (String × List String)) : Prop :=
  ∀ e ∈ m, e.2 ≠ [] ∧ ∀ A ∈ e.2, ∃ rec, (A, rec) ∈ D ∧ e.1 ∈ rec.into

/-! ## Concrete example data used by the claim scenarios -/

/-- An item record with no tags, no recipe lists, zero gold and no depth. -/
def blankRec : ItemRec := ⟨[], [], [], 0, none⟩

/-- The scenario payload of claim C1: the three components, then Trinity Force
(`"3078"`) declaring `from: ["3057","3044","3051"]` (ids in ascending order as
in the upstream catalog). -/
def trinityPayload : List (String × ItemRec) :=
  [("3057", { blankRec with goldTotal := 700, depth := some 1 }),
   ("3044", { blankRec with goldTotal := 1100, depth := some 1 }),
   ("3051", { blankRec with goldTotal := 900, depth := some 1 }),
   ("3078", { blankRec with
      from_ := ["3057", "3044", "3051"]
      goldTotal := 3333
      depth := some 3 })]

/-- The items database after syncing the C1 scenario payload into an empty
store via `update_items`. -/
def trinityDb : ItemsDb := updateItems trinityPayload "14.1.1" ⟨∅, ∅, ∅, ∅, []⟩

/-- The C7 scenario batch: three champions of which exactly the second is
malformed (its processing raises). -/
def champBatch : List (String × ChampRec) :=
  [("Aatrox", ⟨["Fighter"], true⟩), ("Brand", ⟨["Mage"], false⟩),
   ("Caitlyn", ⟨["Marksman"], true⟩)]

/-- C8 scenario batch: two well-formed champions. -/
def c8Champs : List (String × ChampRec) :=
  [("Aatrox", ⟨["Fighter"], true⟩), ("Caitlyn", ⟨["Marksman"], true⟩)]

/-- C3 scenario: the record of the mythic product `"P"` (gold 3000 > 2500). -/
def c3recP : ItemRec := { blankRec with goldTotal := 3000, depth := some 3 }

/-- C3 scenario: the record of the candidate `"A"`, declaring `into: ["P"]`. -/
def c3recA : ItemRec := { blankRec with into := ["P"], goldTotal := 500, depth := some 1 }

/-- C3 scenario entity map: only `"P"` was synced into the entity map. -/
def c3AllItems : List (String × ItemEntity) := [("P", ⟨[], some 3, some 3000⟩)]

/-- C3 scenario payload: the mythic `"P"` plus the out-of-map candidate `"A"`. -/
def c3ItemsData : List (String × ItemRec) := [("P", c3recP), ("A", c3recA)]

/-- C4 scenario: mythic product `"P"` declares `from: ["X"]`; `"A"` declares
`into: ["P"]` but is not among the entities. -/
def c4recP : ItemRec := { blankRec with from_ := ["X"], goldTotal := 3000, depth := some 3 }

def c4AllItems : List (String × ItemEntity) :=
  [("P", ⟨[], some 3, some 3000⟩), ("X", ⟨[], some 1, some 1000⟩)]

def c4ItemsData : List (String × ItemRec) :=
  [("P", c4recP), ("A", { blankRec with into := ["P"], goldTotal := 500, depth := some 1 })]

/-- C5 scenario entity for the orphan mythic `"P"` (tier 3, gold 3000). -/
def c5entP : ItemEntity := ⟨[], some 3, some 3000⟩

/-- C5 scenario entities: the orphan mythic plus two tier-1 items of gold 2000
(`"B1"`, at 2/3 of the mythic's cost — below it but above half of it) and 1000
(`"B2"`). -/
def c5AllItems : List (String × ItemEntity) :=
  [("P", c5entP), ("B1", ⟨[], some 1, some 2000⟩), ("B2", ⟨[], some 1, some 1000⟩)]

/-- C5 scenario payload: no `from`/`into` lists anywhere, so `"P"` has zero
components and zero reverse-index candidates after the rebuild and repair
passes. -/
def c5ItemsData : List (String × ItemRec) :=
  [("P", { blankRec with goldTotal := 3000, depth := some 3 }),
   ("B1", { blankRec with goldTotal := 2000, depth := some 1 }),
   ("B2", { blankRec with goldTotal := 1000, depth := some 1 })]

/-! ### Ledger lemmas -/

theorem unsetOne_rowId (et : String) (r : LedgerRow) : (unsetOne et r).rowId = r.rowId := by
  unfold unsetOne; split <;> rfl

theorem unsetOne_entityType (et : String) (r : LedgerRow) :
    (unsetOne et r).entityType = r.entityType := by
  unfold unsetOne; split <;> rfl

theorem unsetOne_version (et : String) (r : LedgerRow) :
    (unsetOne et r).version = r.version := by
  unfold unsetOne; split <;> rfl

theorem unsetOne_isCurrent_of_et {et : String} {r : LedgerRow} (h : r.entityType = et) :
    (unsetOne et r).isCurrent = false := by
  unfold unsetOne
  by_cases hc : r.isCurrent
  · rw [if_pos ⟨h, hc⟩]
  · rw [if_neg (by simp [hc])]
    simpa using hc

theorem unsetOne_eq_self_of_ne {et : String} {r : LedgerRow} (h : r.entityType ≠ et) :
    unsetOne et r = r := by
  unfold unsetOne
  rw [if_neg (by simp [h])]

theorem unsetOne_eq_self_of_not_current {et : String} {r : LedgerRow}
    (h : r.isCurrent = false) : unsetOne et r = r := by
  unfold unsetOne
  rw [if_neg (by simp [h])]

/-- Fact A: after the unset step, every row of the family is non-current. -/
theorem mem_unsetCurrent_not_current {rows : List LedgerRow} {et : String} {s : LedgerRow}
    (hs : s ∈ unsetCurrent rows et) (hety : s.entityType = et) : s.isCurrent = false := by
  rcases List.mem_map.mp hs with ⟨t, _, rfl⟩
  have hty : t.entityType = et := by rwa [unsetOne_entityType] at hety
  exact unsetOne_isCurrent_of_et hty

theorem unsetCurrent_map_rowId (rows : List LedgerRow) (et : String) :
    (unsetCurrent rows et).map (·.rowId) = rows.map (·.rowId) := by
  unfold unsetCurrent
  rw [List.map_map]
  exact List.map_congr_left fun r _ => unsetOne_rowId et r

/-- Unsetting twice is the same as unsetting once. -/
theorem unsetCurrent_idem (rows : List LedgerRow) (et : String) :
    unsetCurrent (unsetCurrent rows et) et = unsetCurrent rows et := by
  unfold unsetCurrent
  rw [List.map_map]
  refine List.map_congr_left fun r _ => ?_
  show unsetOne et (unsetOne et r) = unsetOne et r
  by_cases h : r.entityType = et
  · exact unsetOne_eq_self_of_not_current (unsetOne_isCurrent_of_et h)
  · exact unsetOne_eq_self_of_ne (fun hc => h (by rwa [unsetOne_entityType] at hc))

theorem rowId_le_foldr_max {rows : List LedgerRow} {s : LedgerRow} (hs : s ∈ rows) :
    s.rowId ≤ (rows.map (·.rowId)).foldr max 0 := by
  induction rows with
  | nil => cases hs
  | cons t ts ih =>
      rcases List.mem_cons.mp hs with rfl | h
      · exact le_max_left _ _
      · exact le_trans (ih h) (le_max_right _ _)

/-- The fresh autoincrement id is not used by any existing row. -/
theorem freshId_not_mem {rows : List LedgerRow} {s : LedgerRow} (hs : s ∈ rows) :
    s.rowId ≠ freshId rows := by
  have h := rowId_le_foldr_max hs
  unfold freshId
  omega

/-- With distinct ids, a row of the list is determined by its id. -/
theorem eq_of_mem_of_rowId_eq {rows : List LedgerRow} {s t : LedgerRow}
    (hnd : (rows.map (·.rowId)).Nodup) (hs : s ∈ rows) (ht : t ∈ rows)
    (h : s.rowId = t.rowId) : s = t :=
  List.inj_on_of_nodup_map hnd hs ht h

/-- The current-row predicate, evaluated after the unset step. -/
theorem pred_unsetOne (et f : String) (r : LedgerRow) :
    ((unsetOne et r).entityType == f && (unsetOne et r).isCurrent) =
      (if r.entityType = et then false else (r.entityType == f && r.isCurrent)) := by
  by_cases h : r.entityType = et
  · rw [if_pos h]
    simp [unsetOne_isCurrent_of_et h]
  · rw [if_neg h, unsetOne_eq_self_of_ne h]

theorem countCurrent_unsetCurrent_self (rows : List LedgerRow) (et : String) :
    countCurrent (unsetCurrent rows et) et = 0 := by
  unfold countCurrent unsetCurrent
  rw [List.length_eq_zero, List.filter_eq_nil_iff]
  intro a ha
  rcases List.mem_map.mp ha with ⟨r, _, rfl⟩
  rw [pred_unsetOne]
  by_cases h : r.entityType = et
  · simp [h]
  · simp [h]

theorem countCurrent_unsetCurrent_ne (rows : List LedgerRow) {et f : String}
    (hf : f ≠ et) : countCurrent (unsetCurrent rows et) f = countCurrent rows f := by
  unfold countCurrent unsetCurrent
  induction rows with
  | nil => rfl
  | cons r rs ih =>
      simp only [List.map_cons, List.filter_cons]
      rw [pred_unsetOne]
      by_cases h : r.entityType = et
      · rw [if_pos h]
        have : (r.entityType == f && r.isCurrent) = false := by
          have : r.entityType ≠ f := fun hc => hf (hc ▸ h)
          simp [this]
        rw [this]
        simpa using ih
      · rw [if_neg h]
        cases hb : (r.entityType == f && r.isCurrent) <;> simp [ih]

theorem length_filter_map {α β : Type} (g : α → β) (q : β → Bool) (l : List α) :
    (List.filter q (l.map g)).length = (List.filter (fun a => q (g a)) l).length := by
  induction l with
  | nil => rfl
  | cons a t ih =>
      simp only [List.map_cons, List.filter_cons]
      cases h : q (g a) <;> simp [h, ih]

theorem setIsCurrentFalse_eq_self {r : LedgerRow} (h : r.isCurrent = false) :
    { r with isCurrent := false } = r := by
  cases r
  simp_all

theorem filter_eq_singleton_length {l : List Nat} {a : Nat} (hnd : l.Nodup) (ha : a ∈ l) :
    (l.filter fun n => decide (n = a)).length = 1 := by
  induction l with
  | nil => cases ha
  | cons b t ih =>
      rw [List.nodup_cons] at hnd
      by_cases hb : b = a
      · subst hb
        have h0 : (t.filter fun n => decide (n = b)).length = 0 := by
          rw [List.length_eq_zero, List.filter_eq_nil_iff]
          intro x hx
          simp only [decide_eq_true_eq]
          intro hc
          exact hnd.1 (hc ▸ hx)
        simp [List.filter_cons, h0]
      · rcases List.mem_cons.mp ha with rfl | h
        · exact absurd rfl hb
        · simp [List.filter_cons, hb, ih hnd.2 h]

/-- Facts extracted from a successful `findVersionRow`. -/
theorem findVersionRow_spec {rows : List LedgerRow} {v et : String} {r : LedgerRow}
    (h : findVersionRow rows v et = some r) :
    r ∈ rows ∧ r.entityType = et ∧ r.version = v := by
  have h1 := List.find?_some h
  simp only [Bool.and_eq_true, beq_iff_eq] at h1
  exact ⟨List.mem_of_find?_eq_some h, h1.1, h1.2⟩

theorem findVersionRow_none {rows : List LedgerRow} {v et : String}
    (h : findVersionRow rows v et = none) :
    ∀ r ∈ rows, ¬(r.entityType = et ∧ r.version = v) := by
  intro r hr hc
  have := List.find?_eq_none.mp h r hr
  simp [hc.1, hc.2] at this

/-- After the unset step, the current-row search for the family finds nothing. -/
theorem find_current_unsetCurrent (rows : List LedgerRow) (et : String) :
    ((unsetCurrent rows et).find? fun r => r.entityType == et && r.isCurrent) = none := by
  rw [List.find?_eq_none]
  intro s hs hc
  have h1 : s.entityType = et := by simpa using (Bool.and_elim_left hc)
  have h2 : s.isCurrent = true := by simpa using (Bool.and_elim_right hc)
  rw [mem_unsetCurrent_not_current hs h1] at h2
  cases h2

/-- In the update-by-id branch, family counts for other families are unchanged. -/
theorem countCurrent_mark_ne {rows : List LedgerRow} {et f : String} {r : LedgerRow}
    (hnd : (rows.map (·.rowId)).Nodup) (hr : r ∈ rows) (hret : r.entityType = et)
    (hf : f ≠ et) :
    countCurrent (rows.map (markCurrentById r.rowId)) f = countCurrent rows f := by
  unfold countCurrent
  rw [length_filter_map]
  congr 1
  refine List.filter_congr fun s hs => ?_
  unfold markCurrentById
  by_cases h : s.rowId = r.rowId
  · have hsr : s = r := eq_of_mem_of_rowId_eq hnd hs hr h
    subst hsr
    rw [if_pos h]
    have : s.entityType ≠ f := fun hc => hf (hc ▸ hret)
    simp [this]
  · rw [if_neg h]

/-- In the update-by-id branch applied after unset, the family's count becomes 1. -/
theorem countCurrent_mark_self {base : List LedgerRow} {et : String} {r : LedgerRow}
    (hnd : (base.map (·.rowId)).Nodup) (hr : r ∈ base) (hret : r.entityType = et)
    (hclear : ∀ s ∈ base, s.entityType = et → s.isCurrent = false) :
    countCurrent (base.map (markCurrentById r.rowId)) et = 1 := by
  unfold countCurrent
  rw [length_filter_map]
  have hpt : ∀ s ∈ base,
      ((markCurrentById r.rowId s).entityType == et && (markCurrentById r.rowId s).isCurrent) =
        decide (s.rowId = r.rowId) := by
    intro s hs
    unfold markCurrentById
    by_cases h : s.rowId = r.rowId
    · have hsr : s = r := eq_of_mem_of_rowId_eq hnd hs hr h
      subst hsr
      rw [if_pos h]
      simp [hret, h]
    · rw [if_neg h]
      by_cases hty : s.entityType = et
      · simp [hclear s hs hty, h]
      · simp [hty, h]
  rw [List.filter_congr hpt]
  calc (List.filter (fun s => decide (s.rowId = r.rowId)) base).length
      = (List.filter (fun n => decide (n = r.rowId)) (base.map (·.rowId))).length :=
        (length_filter_map (fun s : LedgerRow => s.rowId) (fun n => decide (n = r.rowId))
          base).symm
    _ = 1 := filter_eq_singleton_length hnd (List.mem_map_of_mem _ hr)

theorem find?_append_none {α : Type} {p : α → Bool} {l1 l2 : List α}
    (h : l1.find? p = none) : (l1 ++ l2).find? p = l2.find? p := by
  induction l1 with
  | nil => rfl
  | cons a t ih =>
      cases hpa : p a with
      | true => rw [List.find?_cons_of_pos _ hpa] at h; cases h
      | false =>
          have hpa' : ¬p a = true := by simp [hpa]
          rw [List.find?_cons_of_neg _ hpa'] at h
          rw [List.cons_append, List.find?_cons_of_neg _ hpa']
          exact ih h

/-- `get_current_db_version` after an update-by-id mark, when the base is cleared. -/
theorem getCurrent_after_mark {base : List LedgerRow} {et v : String} {r : LedgerRow}
    (hnd : (base.map (·.rowId)).Nodup) (hr : r ∈ base) (hret : r.entityType = et)
    (hrv : r.version = v)
    (hclear : ∀ s ∈ base, s.entityType = et → s.isCurrent = false) :
    getCurrentDbVersion (base.map (markCurrentById r.rowId)) et = some v := by
  unfold getCurrentDbVersion
  cases hf : (base.map (markCurrentById r.rowId)).find?
      (fun s => s.entityType == et && s.isCurrent) with
  | none =>
      exfalso
      apply List.find?_eq_none.mp hf (markCurrentById r.rowId r) (List.mem_map_of_mem _ hr)
      unfold markCurrentById
      rw [if_pos rfl]
      simp [hret]
  | some y =>
      have hy := List.find?_some hf
      rcases List.mem_map.mp (List.mem_of_find?_eq_some hf) with ⟨s, hs, rfl⟩
      simp only [Bool.and_eq_true, beq_iff_eq] at hy
      by_cases h : s.rowId = r.rowId
      · have hsr : s = r := eq_of_mem_of_rowId_eq hnd hs hr h
        subst hsr
        unfold markCurrentById
        rw [if_pos rfl]
        simpa using hrv
      · exfalso
        unfold markCurrentById at hy
        rw [if_neg h] at hy
        have := hclear s hs hy.1
        rw [this] at hy
        exact Bool.false_ne_true hy.2

/-- `get_current_db_version` after appending a fresh current row to a cleared base. -/
theorem getCurrent_after_append {base : List LedgerRow} {et v : String}
    (hclear : ∀ s ∈ base, s.entityType = et → s.isCurrent = false) {z : LedgerRow}
    (hz : z.entityType = et) (hzc : z.isCurrent = true) (hzv : z.version = v) :
    getCurrentDbVersion (base ++ [z]) et = some v := by
  unfold getCurrentDbVersion
  have hb : base.find? (fun s => s.entityType == et && s.isCurrent) = none := by
    rw [List.find?_eq_none]
    intro s hs hc
    simp only [Bool.and_eq_true, beq_iff_eq] at hc
    rw [hclear s hs hc.1] at hc
    exact Bool.false_ne_true hc.2
  rw [find?_append_none hb]
  have hzf : ([z].find? fun s => s.entityType == et && s.isCurrent) = some z :=
    List.find?_cons_of_pos _ (by simp [hz, hzc])
  rw [hzf]
  simpa using hzv

theorem countCurrent_append (base : List LedgerRow) (z : LedgerRow) (f : String) :
    countCurrent (base ++ [z]) f = countCurrent base f + countCurrent [z] f := by
  unfold countCurrent
  rw [List.filter_append, List.length_append]

theorem setCurrentVersion_eq_mark {rows : List LedgerRow} {v et : String} {r : LedgerRow}
    (h : findVersionRow (unsetCurrent rows et) v et = some r) :
    setCurrentVersion rows v et = (unsetCurrent rows et).map (markCurrentById r.rowId) := by
  unfold setCurrentVersion
  rw [h]

theorem setCurrentVersion_eq_append {rows : List LedgerRow} {v et : String}
    (h : findVersionRow (unsetCurrent rows et) v et = none) :
    setCurrentVersion rows v et
      = unsetCurrent rows et ++ [⟨freshId (unsetCurrent rows et), v, et, true⟩] := by
  unfold setCurrentVersion
  rw [h]

/-- Re-running `set_current_version` at the same `(version, entity_type)` leaves the
ledger unchanged (the second run unsets and re-marks the same row). -/
theorem setCurrentVersion_idem (rows : List LedgerRow) (v et : String)
    (hnd : (rows.map (·.rowId)).Nodup) :
    setCurrentVersion (setCurrentVersion rows v et) v et = setCurrentVersion rows v et := by
  have hndL1 : ((unsetCurrent rows et).map (·.rowId)).Nodup := by
    rw [unsetCurrent_map_rowId]; exact hnd
  have hclear : ∀ s ∈ unsetCurrent rows et, s.entityType = et → s.isCurrent = false :=
    fun s hs h => mem_unsetCurrent_not_current hs h
  cases hfr : findVersionRow (unsetCurrent rows et) v et with
  | some r =>
      obtain ⟨hrmem, hret, _⟩ := findVersionRow_spec hfr
      have hA : unsetCurrent ((unsetCurrent rows et).map (markCurrentById r.rowId)) et
          = unsetCurrent rows et := by
        show ((unsetCurrent rows et).map (markCurrentById r.rowId)).map (unsetOne et)
            = unsetCurrent rows et
        rw [List.map_map]
        have hpt : ∀ s ∈ unsetCurrent rows et,
            (unsetOne et ∘ markCurrentById r.rowId) s = id s := by
          intro s hs
          show unsetOne et (markCurrentById r.rowId s) = s
          by_cases h : s.rowId = r.rowId
          · have hsr : s = r := eq_of_mem_of_rowId_eq hndL1 hs hrmem h
            subst hsr
            unfold markCurrentById
            rw [if_pos rfl]
            unfold unsetOne
            rw [if_pos ⟨hret, rfl⟩]
            exact setIsCurrentFalse_eq_self (hclear s hs hret)
          · unfold markCurrentById
            rw [if_neg h]
            by_cases hty : s.entityType = et
            · exact unsetOne_eq_self_of_not_current (hclear s hs hty)
            · exact unsetOne_eq_self_of_ne hty
        rw [List.map_congr_left hpt, List.map_id]
      have h2 : findVersionRow
          (unsetCurrent ((unsetCurrent rows et).map (markCurrentById r.rowId)) et) v et
          = some r := by rw [hA]; exact hfr
      rw [setCurrentVersion_eq_mark hfr, setCurrentVersion_eq_mark h2, hA]
  | none =>
      have hA : unsetCurrent
            (unsetCurrent rows et ++ [⟨freshId (unsetCurrent rows et), v, et, true⟩]) et
          = unsetCurrent rows et ++ [⟨freshId (unsetCurrent rows et), v, et, false⟩] := by
        show (unsetCurrent rows et
            ++ [(⟨freshId (unsetCurrent rows et), v, et, true⟩ : LedgerRow)]).map (unsetOne et)
            = _
        rw [List.map_append]
        congr 1
        · exact unsetCurrent_idem rows et
        · show [unsetOne et ⟨freshId (unsetCurrent rows et), v, et, true⟩] = _
          congr 1
          unfold unsetOne
          rw [if_pos ⟨rfl, rfl⟩]
      have hB : findVersionRow
          (unsetCurrent rows et ++ [⟨freshId (unsetCurrent rows et), v, et, false⟩]) v et
          = some ⟨freshId (unsetCurrent rows et), v, et, false⟩ := by
        unfold findVersionRow
        rw [find?_append_none hfr]
        exact List.find?_cons_of_pos _ (by simp)
      have h2 : findVersionRow (unsetCurrent
            (unsetCurrent rows et ++ [⟨freshId (unsetCurrent rows et), v, et, true⟩]) et) v et
          = some ⟨freshId (unsetCurrent rows et), v, et, false⟩ := by
        rw [hA]; exact hB
      rw [setCurrentVersion_eq_append hfr, setCurrentVersion_eq_mark h2, hA,
        List.map_append]
      congr 1
      · have hpt : ∀ s ∈ unsetCurrent rows et,
            markCurrentById (LedgerRow.rowId ⟨freshId (unsetCurrent rows et), v, et, false⟩) s
              = id s := by
          intro s hs
          show markCurrentById (freshId (unsetCurrent rows et)) s = s
          unfold markCurrentById
          rw [if_neg (freshId_not_mem hs)]
        rw [List.map_congr_left hpt, List.map_id]
      · show [markCurrentById _ _] = _
        congr 1
        unfold markCurrentById
        rw [if_pos rfl]

/-! ### Recipe-pass lemmas -/

theorem foldl_fixed {α β : Type} {f : α → β → α} {l : List β} {a : α}
    (h : ∀ x ∈ l, f a x = a) : l.foldl f a = a := by
  induction l with
  | nil => rfl
  | cons b t ih =>
      rw [List.foldl_cons, h b (List.mem_cons_self b t)]
      exact ih fun x hx => h x (List.mem_cons_of_mem b hx)

theorem mem_foldl_of_step {α β : Type} {f : List α → β → List α}
    (hf : ∀ acc b x, x ∈ acc → x ∈ f acc b) :
    ∀ (l : List β) (acc : List α) (x : α), x ∈ acc → x ∈ l.foldl f acc := by
  intro l
  induction l with
  | nil => intro acc x hx; exact hx
  | cons b t ih => intro acc x hx; exact ih _ _ (hf acc b x hx)

theorem mem_appendIntoEdges {allItems : List (String × ItemEntity)} {a : String}
    {E : List (String × String)} {l : List String} {e : String × String} (he : e ∈ E) :
    e ∈ appendIntoEdges allItems a E l := by
  refine mem_foldl_of_step ?_ l E e he
  intro acc b x hx
  cases hl : allItems.lookup b with
  | none => simpa [hl] using hx
  | some _ =>
      simp only [hl]
      exact List.mem_append_left _ hx

theorem mem_appendFromEdges {allItems : List (String × ItemEntity)} {a : String}
    {E : List (String × String)} {l : List String} {e : String × String} (he : e ∈ E) :
    e ∈ appendFromEdges allItems a E l := by
  refine mem_foldl_of_step ?_ l E e he
  intro acc b x hx
  cases hl : allItems.lookup b with
  | none => simpa [hl] using hx
  | some _ =>
      simp only [hl]
      exact List.mem_append_left _ hx

theorem mem_appendIntoEdges_self {allItems : List (String × ItemEntity)} {a : String}
    {l : List String} {p : String} (hp : p ∈ l) (hsome : (allItems.lookup p).isSome)
    (E : List (String × String)) : (p, a) ∈ appendIntoEdges allItems a E l := by
  induction l generalizing E with
  | nil => cases hp
  | cons q t ih =>
      unfold appendIntoEdges
      rw [List.foldl_cons]
      rcases List.mem_cons.mp hp with rfl | hp1
      · obtain ⟨v, hv⟩ := Option.isSome_iff_exists.mp hsome
        simp only [hv]
        exact mem_appendIntoEdges (List.mem_append_right _ (List.mem_singleton_self _))
      · exact ih hp1 _

theorem firstPassStep_mono {allItems : List (String × ItemEntity)}
    {E : List (String × String)} {x : String × ItemRec} {e : String × String}
    (he : e ∈ E) : e ∈ firstPassStep allItems E x := by
  unfold firstPassStep
  cases hl : allItems.lookup x.1 with
  | none => exact he
  | some _ => exact mem_appendFromEdges (mem_appendIntoEdges he)

theorem firstPassStep_mem {allItems : List (String × ItemEntity)}
    {E : List (String × String)} {a : String} {rec : ItemRec} {p : String}
    (ha : (allItems.lookup a).isSome) (hp : (allItems.lookup p).isSome)
    (hmem : p ∈ rec.into) : (p, a) ∈ firstPassStep allItems E (a, rec) := by
  unfold firstPassStep
  obtain ⟨v, hv⟩ := Option.isSome_iff_exists.mp ha
  simp only [hv]
  exact mem_appendFromEdges (mem_appendIntoEdges_self hmem hp E)

theorem mem_firstPass_fold {allItems : List (String × ItemEntity)}
    {l : List (String × ItemRec)} {E : List (String × String)} {e : String × String}
    (he : e ∈ E) : e ∈ l.foldl (firstPassStep allItems) E :=
  mem_foldl_of_step (fun _ _ _ hx => firstPassStep_mono hx) l E e he

theorem firstPass_mem {allItems : List (String × ItemEntity)}
    {itemsData : List (String × ItemRec)} {a : String} {rec : ItemRec} {p : String}
    (hrec : (a, rec) ∈ itemsData) (ha : (allItems.lookup a).isSome)
    (hp : (allItems.lookup p).isSome) (hmem : p ∈ rec.into) :
    (p, a) ∈ firstPass allItems itemsData := by
  unfold firstPass
  suffices h : ∀ (l : List (String × ItemRec)) (E : List (String × String)),
      (a, rec) ∈ l → (p, a) ∈ l.foldl (firstPassStep allItems) E by
    exact h itemsData [] hrec
  intro l
  induction l with
  | nil => intro E hx; cases hx
  | cons y t ih =>
      intro E hx
      rw [List.foldl_cons]
      rcases List.mem_cons.mp hx with rfl | hx1
      · exact mem_firstPass_fold (firstPassStep_mem ha hp hmem)
      · exact ih _ hx1

theorem mem_builtFromL {E : List (String × String)} {b a : String} :
    a ∈ builtFromL E b ↔ (b, a) ∈ E := by
  unfold builtFromL
  constructor
  · intro h
    rcases List.mem_map.mp h with ⟨e, he, rfl⟩
    rcases List.mem_filter.mp he with ⟨heE, hb⟩
    have : e.1 = b := by simpa using hb
    rwa [← this, Prod.mk.eta]
  · intro h
    refine List.mem_map.mpr ⟨(b, a), List.mem_filter.mpr ⟨h, by simp⟩, rfl⟩

theorem addRev_ok {D : List (String × ItemRec)} {m : List (String × List String)}
    {k v : String} (hm : RevOK D m) (hv : ∃ rec, (v, rec) ∈ D ∧ k ∈ rec.into) :
    RevOK D (addRev m k v) := by
  induction m with
  | nil =>
      intro e he
      rcases List.mem_singleton.mp he with rfl
      exact ⟨by simp, fun A hA => by rcases List.mem_singleton.mp hA with rfl; exact hv⟩
  | cons y t ih =>
      unfold addRev
      by_cases hk : y.1 = k
      · rw [if_pos hk]
        intro e he
        rcases List.mem_cons.mp he with rfl | he1
        · refine ⟨by simp, fun A hA => ?_⟩
          rcases List.mem_append.mp hA with hA1 | hA2
          · exact (hm y (List.mem_cons_self _ _)).2 A hA1
          · rcases List.mem_singleton.mp hA2 with rfl
            rw [hk]
            exact hv
        · exact hm e (List.mem_cons_of_mem _ he1)
      · rw [if_neg hk]
        intro e he
        rcases List.mem_cons.mp he with rfl | he1
        · rw [Prod.mk.eta]
          exact hm y (List.mem_cons_self _ _)
        · exact ih (fun x hx => hm x (List.mem_cons_of_mem _ hx)) e he1

theorem intoFold_ok {D : List (String × ItemRec)} {a : String} {rec : ItemRec}
    (ha : (a, rec) ∈ D) :
    ∀ (l : List String), (∀ p ∈ l, p ∈ rec.into) →
      ∀ (m : List (String × List String)), RevOK D m →
        RevOK D (l.foldl (fun m1 p => addRev m1 p a) m) := by
  intro l
  induction l with
  | nil => intro _ m hm; exact hm
  | cons p t ih =>
      intro hsub m hm
      rw [List.foldl_cons]
      exact ih (fun q hq => hsub q (List.mem_cons_of_mem _ hq))
        _ (addRev_ok hm ⟨rec, ha, hsub p (List.mem_cons_self _ _)⟩)

theorem buildsFromMap_ok (itemsData : List (String × ItemRec)) :
    RevOK itemsData (buildsFromMap itemsData) := by
  unfold buildsFromMap
  suffices h : ∀ (l : List (String × ItemRec)), (∀ y ∈ l, y ∈ itemsData) →
      ∀ (m : List (String × List String)), RevOK itemsData m →
        RevOK itemsData (l.foldl
          (fun m1 x => x.2.into.foldl (fun m2 p => addRev m2 p x.1) m1) m) by
    exact h itemsData (fun y hy => hy) [] (fun e he => by cases he)
  intro l
  induction l with
  | nil => intro _ m hm; exact hm
  | cons y t ih =>
      intro hsub m hm
      rw [List.foldl_cons]
      refine ih (fun z hz => hsub z (List.mem_cons_of_mem _ hz)) _ ?_
      exact intoFold_ok (Prod.mk.eta ▸ hsub y (List.mem_cons_self _ _))
        y.2.into (fun p hp => hp) m hm

/-- The asymmetry-repair pass never changes the edge set: any candidate it
could link was already linked by the rebuild pass (the rebuild pass inserts
every reverse-index edge whose endpoints are in `all_items`), the mythic branch
also requires an empty `built_from`, and the in-loop heuristic requires an
empty candidate list, which never occurs. -/
theorem repairStep_eq {allItems : List (String × ItemEntity)}
    {itemsData : List (String × ItemRec)} {entry : String × List String}
    (hsound : ∀ A ∈ entry.2, ∃ rec, (A, rec) ∈ itemsData ∧ entry.1 ∈ rec.into)
    (hne : entry.2 ≠ []) :
    repairStep allItems itemsData (firstPass allItems itemsData) entry
      = firstPass allItems itemsData := by
  unfold repairStep
  cases hP : allItems.lookup entry.1 with
  | none => rfl
  | some Pent =>
    cases hD : itemsData.lookup entry.1 with
    | none => rfl
    | some rec =>
        simp only
        have hcompsne : entry.2.isEmpty = false := by
          cases h2 : entry.2 with
          | nil => exact absurd h2 hne
          | cons c cs => rfl
        by_cases hguard : ((¬(¬rec.from_.isEmpty) ∧ ¬entry.2.isEmpty
              ∧ (builtFromL (firstPass allItems itemsData) entry.1).isEmpty)
            ∨ (recordIsMythic rec ∧ (builtFromL (firstPass allItems itemsData) entry.1).isEmpty))
        · have hempty : builtFromL (firstPass allItems itemsData) entry.1 = [] := by
            rcases hguard with ⟨_, _, h⟩ | ⟨_, h⟩ <;> exact List.isEmpty_iff.mp h
          have hcand : ∀ A ∈ entry.2, allItems.lookup A = none := by
            intro A hA
            cases hl : allItems.lookup A with
            | none => rfl
            | some _ =>
                obtain ⟨recA, hrecA, hPinto⟩ := hsound A hA
                have hmemE : (entry.1, A) ∈ firstPass allItems itemsData :=
                  firstPass_mem hrecA (by rw [hl]; rfl) (by rw [hP]; rfl) hPinto
                have : A ∈ builtFromL (firstPass allItems itemsData) entry.1 :=
                  mem_builtFromL.mpr hmemE
                rw [hempty] at this
                cases this
          rw [if_pos hguard]
          have hfold : entry.2.foldl (fun acc c =>
              match allItems.lookup c with
              | some _ => if c ∈ builtFromL acc entry.1 then acc else acc ++ [(entry.1, c)]
              | none => acc) (firstPass allItems itemsData) = firstPass allItems itemsData := by
            refine foldl_fixed fun c hc => ?_
            rw [hcand c hc]
          rw [hfold]
          rw [if_neg]
          intro hcon
          rw [hcompsne] at hcon
          exact Bool.false_ne_true hcon.2.1
        · rw [if_neg hguard, if_neg]
          intro hcon
          rw [hcompsne] at hcon
          exact Bool.false_ne_true hcon.2.1

/-- `process_item_recipes` computes exactly the rebuild pass's edges. -/
theorem processItemRecipes_eq_firstPass (allItems : List (String × ItemEntity))
    (itemsData : List (String × ItemRec)) :
    processItemRecipes allItems itemsData = firstPass allItems itemsData := by
  unfold processItemRecipes
  refine foldl_fixed fun entry hentry => ?_
  have hok := buildsFromMap_ok itemsData entry hentry
  exact repairStep_eq hok.2 hok.1

/-! ### Orphan-mythic heuristic lemmas -/

theorem lookup_mem {β : Type} {l : List (String × β)} {k : String} {v : β}
    (h : l.lookup k = some v) : (k, v) ∈ l := by
  induction l with
  | nil => cases h
  | cons y t ih =>
      cases y with
      | mk k1 v1 =>
          by_cases hk : k = k1
          · subst hk
            simp only [List.lookup_cons, beq_self_eq_true] at h
            cases h
            exact List.mem_cons_self _ _
          · simp only [List.lookup_cons, beq_eq_false_iff_ne.mpr hk] at h
            exact List.mem_cons_of_mem _ (ih h)

theorem lookup_eq_some_of_mem_nodup {β : Type} {l : List (String × β)} {k : String}
    {v : β} (hnd : (l.map (·.1)).Nodup) (hm : (k, v) ∈ l) : l.lookup k = some v := by
  induction l with
  | nil => cases hm
  | cons y t ih =>
      cases y with
      | mk k1 v1 =>
          rw [List.map_cons, List.nodup_cons] at hnd
          rcases List.mem_cons.mp hm with heq | hm1
          · cases heq
            simp [List.lookup_cons]
          · have hk : k ≠ k1 := by
              intro hc
              subst hc
              exact hnd.1 (List.mem_map_of_mem (·.1) hm1)
            simp only [List.lookup_cons, beq_eq_false_iff_ne.mpr hk]
            exact ih hnd.2 hm1

/-- Under the only-mythic hypotheses, the mythic classification pass selects
exactly the one entry of the orphan mythic. -/
theorem mythicFilter_eq {allItems : List (String × ItemEntity)} {P : String}
    {Pent : ItemEntity} (hnd : (allItems.map (·.1)).Nodup)
    (hmem : (P, Pent) ∈ allItems) (hmy : entityIsMythic Pent = true)
    (honly : ∀ x ∈ allItems, entityIsMythic x.2 = true → x.1 = P) :
    allItems.filter (fun x => entityIsMythic x.2) = [(P, Pent)] := by
  induction allItems with
  | nil => cases hmem
  | cons y t ih =>
      rw [List.map_cons, List.nodup_cons] at hnd
      rw [List.filter_cons]
      rcases List.mem_cons.mp hmem with heq | hm1
      · subst heq
        rw [if_pos (by simpa using hmy)]
        have ht : t.filter (fun x => entityIsMythic x.2) = [] := by
          rw [List.filter_eq_nil_iff]
          intro x hx hmx
          have hxP : x.1 = P := honly x (List.mem_cons_of_mem _ hx) (by simpa using hmx)
          exact hnd.1 (hxP ▸ List.mem_map_of_mem (·.1) hx)
        rw [ht]
      · have hyP : entityIsMythic y.2 = false := by
          cases hcy : entityIsMythic y.2 with
          | false => rfl
          | true =>
              exfalso
              have : y.1 = P := honly y (List.mem_cons_self _ _) hcy
              exact hnd.1 (this ▸ List.mem_map_of_mem (·.1) hm1)
        rw [if_neg (by simp [hyP])]
        exact ih hnd.2 hm1 fun x hx hmx => honly x (List.mem_cons_of_mem _ hx) hmx

theorem foldl_congr_fun {α β : Type} {f g : α → β → α} (l : List β)
    (h : ∀ acc x, f acc x = g acc x) (acc : α) : l.foldl f acc = l.foldl g acc := by
  induction l generalizing acc with
  | nil => rfl
  | cons x t ih => rw [List.foldl_cons, List.foldl_cons, h]; exact ih _

theorem foldl_append_if_eq_filter {α : Type} (p : α → Prop) [DecidablePred p] :
    ∀ (l : List α) (acc : List α),
      l.foldl (fun acc x => if p x then acc ++ [x] else acc) acc
        = acc ++ l.filter (fun x => decide (p x)) := by
  intro l
  induction l with
  | nil => intro acc; simp
  | cons x t ih =>
      intro acc
      rw [List.foldl_cons, List.filter_cons]
      by_cases hp : p x
      · rw [if_pos hp, ih, if_pos (by simpa using hp), List.append_assoc]
        rfl
      · rw [if_neg hp, ih, if_neg (by simpa using hp)]

/-- The basic-components fold of `ensure_mythic_item_build_paths` is the
filter by the amended claim's candidate predicate. -/
theorem basicsBody_eq (P : String) (Pent : ItemEntity)
    (acc : List (String × ItemEntity)) (x : String × ItemEntity) :
    (if x.1 = P then acc
     else match x.2.tier with
       | none => acc
       | some t =>
           if t = 0 then acc
           else if 2 < t then acc
           else match x.2.totalGold, Pent.totalGold with
             | some og, some pg =>
                 if og ≠ 0 ∧ pg ≠ 0 ∧ 2 * og < pg then acc ++ [x] else acc
             | _, _ => acc)
    = if (¬x.1 = P ∧ truthyTierLE x.2.tier 2
          ∧ truthyGoldLTHalf x.2.totalGold Pent.totalGold) then acc ++ [x]
      else acc := by
  by_cases hx : x.1 = P
  · rw [if_pos hx, if_neg (by simp [hx])]
  · rw [if_neg hx]
    split
    · rename_i heq
      rw [if_neg (by simp [truthyTierLE, heq])]
    · rename_i t heq
      by_cases ht0 : t = 0
      · subst ht0
        rw [if_pos rfl, if_neg (by simp [truthyTierLE, heq])]
      · rw [if_neg ht0]
        by_cases ht2 : 2 < t
        · rw [if_pos ht2, if_neg (by simp [truthyTierLE, heq, ht0]; omega)]
        · rw [if_neg ht2]
          have htle : truthyTierLE x.2.tier 2 = true := by
            simp [truthyTierLE, heq, ht0]; omega
          split
          · rename_i og pg hog hpg
            by_cases hg : og ≠ 0 ∧ pg ≠ 0 ∧ 2 * og < pg
            · rw [if_pos hg,
                if_pos ⟨hx, by simp [htle], by simp [truthyGoldLTHalf, hog, hpg, hg]⟩]
            · rw [if_neg hg, if_neg ?_]
              intro hcon
              apply hg
              have hthis := hcon.2.2
              simp only [truthyGoldLTHalf, hog, hpg] at hthis
              by_cases h2 : og ≠ 0 ∧ pg ≠ 0 ∧ 2 * og < pg
              · exact h2
              · rw [if_neg h2] at hthis; cases hthis
          · rename_i hnb
            rw [if_neg ?_]
            intro hcon
            have hthis := hcon.2.2
            cases hog : x.2.totalGold with
            | none => simp [truthyGoldLTHalf, hog] at hthis
            | some og =>
                cases hpg : Pent.totalGold with
                | none => simp [truthyGoldLTHalf, hog, hpg] at hthis
                | some pg => exact hnb og pg hog hpg

theorem mem_insertByGoldDesc {x y : String × ItemEntity} {l : List (String × ItemEntity)} :
    x ∈ insertByGoldDesc y l ↔ x = y ∨ x ∈ l := by
  induction l with
  | nil => simp [insertByGoldDesc]
  | cons z t ih =>
      unfold insertByGoldDesc
      split
      · simp [List.mem_cons]
      · simp only [List.mem_cons, ih]
        tauto

theorem mem_sortByGoldDesc {x : String × ItemEntity} {l : List (String × ItemEntity)} :
    x ∈ sortByGoldDesc l ↔ x ∈ l := by
  unfold sortByGoldDesc
  suffices h : ∀ (l acc : List (String × ItemEntity)),
      x ∈ l.foldl (fun acc y => insertByGoldDesc y acc) acc ↔ x ∈ acc ∨ x ∈ l by
    rw [h l []]
    simp
  intro l
  induction l with
  | nil => intro acc; simp
  | cons y t ih =>
      intro acc
      rw [List.foldl_cons, ih, mem_insertByGoldDesc]
      simp [List.mem_cons]
      tauto

theorem builtFromL_append (E1 E2 : List (String × String)) (b : String) :
    builtFromL (E1 ++ E2) b = builtFromL E1 b ++ builtFromL E2 b := by
  unfold builtFromL
  rw [List.filter_append, List.map_append]

theorem builtFromL_single_self (b c : String) : builtFromL [(b, c)] b = [c] := by
  simp [builtFromL]

/-- `built_from` read after the greedy attach loop: the code's loop attaches
exactly the components computed by the amended claim's greedy function. -/
theorem greedy_builtFrom (allItems : List (String × ItemEntity)) (P : String) (pg : Int) :
    ∀ (cands : List (String × ItemEntity)) (E : List (String × String)),
      (∀ y ∈ cands, allItems.lookup y.1 = some y.2) →
      builtFromL (greedyAttachAux allItems P pg cands E) P
        = builtFromL E P ++ specAttachUncond pg cands (builtFromGoldSum allItems E P) := by
  intro cands
  induction cands with
  | nil => intro E _; simp [greedyAttachAux, specAttachUncond]
  | cons y rest ih =>
      intro E hc
      have hbf : builtFromL (E ++ [(P, y.1)]) P = builtFromL E P ++ [y.1] := by
        rw [builtFromL_append, builtFromL_single_self]
      have hsum : builtFromGoldSum allItems (E ++ [(P, y.1)]) P
          = builtFromGoldSum allItems E P + goldOrZero y.2 := by
        unfold builtFromGoldSum
        rw [hbf, List.map_append, List.sum_append]
        simp [hc y (List.mem_cons_self _ _)]
      unfold greedyAttachAux specAttachUncond
      simp only
      rw [hsum]
      by_cases hstop : 7 * pg < 10 * (builtFromGoldSum allItems E P + goldOrZero y.2)
      · rw [if_pos hstop, if_pos hstop, hbf]
      · rw [if_neg hstop, if_neg hstop,
          ih _ (fun z hz => hc z (List.mem_cons_of_mem _ hz)), hbf, hsum]
        rw [List.append_assoc]
        rfl

/-! ### Sub-entity pruning lemmas -/

theorem spellRow_update_championId (champ : String) (st : SpellSlot) (d : SpellData)
    (x : SpellRow) :
    ((if x.championId = champ ∧ x.slot = st then
        { x with spellId := d.id, name := d.name } else x) : SpellRow).championId
      = x.championId := by
  split <;> rfl

theorem spellRow_update_slot (champ : String) (st : SpellSlot) (d : SpellData)
    (x : SpellRow) :
    ((if x.championId = champ ∧ x.slot = st then
        { x with spellId := d.id, name := d.name } else x) : SpellRow).slot = x.slot := by
  split <;> rfl

/-- The spell-upsert fold never deletes a `(champion, slot)` row. -/
theorem spellsFold_preserves (champ : String) :
    ∀ (l : List (SpellData × SpellSlot)) (acc : List SpellRow) (r : SpellRow),
      r ∈ acc →
      ∃ s ∈ l.foldl (fun acc y =>
          match acc.find? (fun r => r.championId == champ && decide (r.slot = y.2)) with
          | some _ => acc.map fun r =>
              if r.championId = champ ∧ r.slot = y.2 then
                { r with spellId := y.1.id, name := y.1.name }
              else r
          | none => acc ++ [⟨champ, y.2, y.1.id, y.1.name⟩]) acc,
        s.championId = r.championId ∧ s.slot = r.slot := by
  intro l
  induction l with
  | nil => intro acc r hr; exact ⟨r, hr, rfl, rfl⟩
  | cons y t ih =>
      intro acc r hr
      rw [List.foldl_cons]
      cases hf : acc.find? (fun r => r.championId == champ && decide (r.slot = y.2)) with
      | some w =>
          simp only [hf]
          obtain ⟨s, hs, hc, hsl⟩ := ih _
            ((if r.championId = champ ∧ r.slot = y.2 then
                { r with spellId := y.1.id, name := y.1.name } else r))
            (List.mem_map_of_mem (fun x : SpellRow =>
              if x.championId = champ ∧ x.slot = y.2 then
                { x with spellId := y.1.id, name := y.1.name } else x) hr)
          refine ⟨s, hs, ?_, ?_⟩
          · rw [hc, spellRow_update_championId]
          · rw [hsl, spellRow_update_slot]
      | none =>
          simp only [hf]
          exact ih _ r (List.mem_append_left _ hr)

/-! ### Sync idempotence lemmas -/

theorem foldl_insert_eq_union (l : List String) :
    ∀ (s : Finset String), l.foldl (fun a t => insert t a) s = s ∪ l.toFinset := by
  induction l with
  | nil => intro s; simp
  | cons x t ih =>
      intro s
      rw [List.foldl_cons, ih, List.toFinset_cons]
      ext a
      simp only [Finset.mem_union, Finset.mem_insert]
      tauto

theorem itemsFold_ledger (payload : List (String × ItemRec)) :
    ∀ (s : ItemsDb), (payload.foldl updateItemsStep s).ledger = s.ledger := by
  induction payload with
  | nil => intro _; rfl
  | cons x t ih => intro s; rw [List.foldl_cons]; exact ih _

theorem itemsFold_pair (payload : List (String × ItemRec)) :
    ∀ (s : ItemsDb),
      ((payload.foldl updateItemsStep s).items, (payload.foldl updateItemsStep s).edges)
        = payload.foldl edgeStep (s.items, s.edges) := by
  induction payload with
  | nil => intro _; rfl
  | cons x t ih =>
      intro s
      rw [List.foldl_cons, List.foldl_cons]
      exact ih _

theorem itemsFold_tagNames (payload : List (String × ItemRec)) :
    ∀ (s : ItemsDb), (payload.foldl updateItemsStep s).tagNames
      = s.tagNames ∪ (payload.flatMap (fun x => x.2.tags)).toFinset := by
  induction payload with
  | nil => intro s; simp
  | cons x t ih =>
      intro s
      rw [List.foldl_cons, ih]
      rw [show (updateItemsStep s x).tagNames = s.tagNames ∪ x.2.tags.toFinset from
        foldl_insert_eq_union _ _]
      rw [List.flatMap_cons, List.toFinset_append, Finset.union_assoc]

theorem itemsFold_links (payload : List (String × ItemRec)) :
    ∀ (s : ItemsDb), (payload.foldl updateItemsStep s).itemTagLinks
      = (payload.map (fun x => (x.1, x.2.tags))).foldl linkStep s.itemTagLinks := by
  induction payload with
  | nil => intro _; rfl
  | cons x t ih =>
      intro s
      rw [List.foldl_cons, List.map_cons, List.foldl_cons]
      exact ih _

theorem linkFold_decompose :
    ∀ (pairs : List (String × List String)) (L : Finset (String × String)),
      pairs.foldl linkStep L
        = L.filter (fun l => l.1 ∉ pairs.map (·.1)) ∪ pairs.foldl linkStep ∅ := by
  intro pairs
  induction pairs with
  | nil =>
      intro L
      ext l
      simp
  | cons x t ih =>
      intro L
      rw [List.foldl_cons, ih (linkStep L x), List.foldl_cons, ih (linkStep ∅ x)]
      ext l
      simp only [linkStep, Finset.mem_union, Finset.mem_filter, List.map_cons,
        List.mem_cons, Finset.not_mem_empty, false_and, false_or, ne_eq]
      tauto

theorem linkFold_keys :
    ∀ (pairs : List (String × List String)) (L : Finset (String × String))
      (l : String × String), l ∈ pairs.foldl linkStep L →
        l.1 ∈ pairs.map (·.1) ∨ l ∈ L := by
  intro pairs
  induction pairs with
  | nil => intro L l h; exact Or.inr h
  | cons x t ih =>
      intro L l h
      rw [List.foldl_cons] at h
      rcases ih _ l h with hk | hL
      · exact Or.inl (by rw [List.map_cons]; exact List.mem_cons_of_mem _ hk)
      · rcases Finset.mem_union.mp hL with hf | hn
        · exact Or.inr (Finset.mem_filter.mp hf).1
        · rcases List.mem_map.mp (List.mem_toFinset.mp hn) with ⟨tg, _, rfl⟩
          exact Or.inl (by simp)

theorem edgeStep_fst (s : Finset String × Finset (String × String)) (x : String × ItemRec) :
    (edgeStep s x).1 = insert x.1 s.1 := rfl

theorem edgeStep_snd (s : Finset String × Finset (String × String)) (x : String × ItemRec) :
    (edgeStep s x).2 = s.2.filter (fun e => ¬(e.1 = x.1 ∨ e.2 = x.1))
      ∪ recipeInserts x.1 x.2 (insert x.1 s.1) := rfl

theorem edgeFold_fst :
    ∀ (p : List (String × ItemRec)) (s : Finset String × Finset (String × String)),
      (p.foldl edgeStep s).1 = s.1 ∪ (p.map (·.1)).toFinset := by
  intro p
  induction p with
  | nil => intro s; simp
  | cons x t ih =>
      intro s
      rw [List.foldl_cons, ih, edgeStep_fst, List.map_cons, List.toFinset_cons]
      ext a
      simp only [Finset.mem_union, Finset.mem_insert]
      tauto

theorem recipeInserts_endpoint {i : String} {rec : ItemRec} {items : Finset String}
    {e : String × String} (h : e ∈ recipeInserts i rec items) : e.1 = i ∨ e.2 = i := by
  unfold recipeInserts at h
  rcases Finset.mem_union.mp h with h1 | h1 <;>
    rcases List.mem_map.mp (List.mem_toFinset.mp h1) with ⟨a, _, rfl⟩
  · exact Or.inl rfl
  · exact Or.inr rfl

theorem recipeInserts_congr {i : String} {rec : ItemRec} {items1 items2 : Finset String}
    {e : String × String} (h1 : e.1 ∈ items1 ↔ e.1 ∈ items2)
    (h2 : e.2 ∈ items1 ↔ e.2 ∈ items2) :
    (e ∈ recipeInserts i rec items1 ↔ e ∈ recipeInserts i rec items2) := by
  unfold recipeInserts
  simp only [Finset.mem_union, List.mem_toFinset, List.mem_map, List.mem_filter,
    decide_eq_true_eq]
  constructor
  · rintro (⟨a, ⟨ha, hm⟩, rfl⟩ | ⟨a, ⟨ha, hm⟩, rfl⟩)
    · exact Or.inl ⟨a, ⟨ha, h2.mp hm⟩, rfl⟩
    · exact Or.inr ⟨a, ⟨ha, h1.mp hm⟩, rfl⟩
  · rintro (⟨a, ⟨ha, hm⟩, rfl⟩ | ⟨a, ⟨ha, hm⟩, rfl⟩)
    · exact Or.inl ⟨a, ⟨ha, h2.mpr hm⟩, rfl⟩
    · exact Or.inr ⟨a, ⟨ha, h1.mpr hm⟩, rfl⟩

theorem edgeFold_decompose :
    ∀ (p : List (String × ItemRec)) (s : Finset String × Finset (String × String)),
      (p.foldl edgeStep s).2
        = s.2.filter (fun e => ¬(e.1 ∈ p.map (·.1) ∨ e.2 ∈ p.map (·.1)))
          ∪ (p.foldl edgeStep (s.1, ∅)).2 := by
  intro p
  induction p with
  | nil => intro s; ext e; simp
  | cons x t ih =>
      intro s
      rw [List.foldl_cons, List.foldl_cons, ih (edgeStep s x), ih (edgeStep (s.1, ∅) x)]
      rw [edgeStep_snd, edgeStep_snd]
      ext e
      simp only [Finset.mem_union, Finset.mem_filter, List.map_cons, List.mem_cons,
        Finset.not_mem_empty, false_and, false_or, edgeStep_fst]
      tauto

theorem edgeFold_keys :
    ∀ (p : List (String × ItemRec)) (s : Finset String × Finset (String × String))
      (e : String × String), e ∈ (p.foldl edgeStep s).2 →
        (e.1 ∈ p.map (·.1) ∨ e.2 ∈ p.map (·.1)) ∨ e ∈ s.2 := by
  intro p
  induction p with
  | nil => intro s e h; exact Or.inr h
  | cons x t ih =>
      intro s e h
      rw [List.foldl_cons] at h
      rcases ih _ e h with hk | hE
      · left
        simp only [List.map_cons, List.mem_cons]
        tauto
      · rw [edgeStep_snd] at hE
        rcases Finset.mem_union.mp hE with hf | hins
        · exact Or.inr (Finset.mem_filter.mp hf).1
        · left
          have := recipeInserts_endpoint hins
          simp only [List.map_cons, List.mem_cons]
          tauto

theorem edgeFold_congr :
    ∀ (p : List (String × ItemRec)) (s1 s2 : Finset String × Finset (String × String)),
      (∀ k, k ∉ p.map (·.1) → (k ∈ s1.1 ↔ k ∈ s2.1)) →
      (∀ e : String × String, ¬(e.1 ∈ p.map (·.1) ∨ e.2 ∈ p.map (·.1)) →
        (e ∈ s1.2 ↔ e ∈ s2.2)) →
      (p.foldl edgeStep s1).2 = (p.foldl edgeStep s2).2 := by
  intro p
  induction p with
  | nil =>
      intro s1 s2 _ hE
      ext e
      exact hE e (by simp)
  | cons x t ih =>
      intro s1 s2 hI hE
      rw [List.foldl_cons, List.foldl_cons]
      refine ih _ _ ?_ ?_
      · intro k hk
        rw [edgeStep_fst, edgeStep_fst, Finset.mem_insert, Finset.mem_insert]
        by_cases hkx : k = x.1
        · simp [hkx]
        · have hknot : k ∉ (x :: t).map (·.1) := by
            intro hc
            rw [List.map_cons] at hc
            rcases List.mem_cons.mp hc with h | h
            · exact hkx h
            · exact hk h
          rw [hI k hknot]
      · intro e he
        rw [edgeStep_snd, edgeStep_snd]
        simp only [Finset.mem_union, Finset.mem_filter]
        by_cases hx : e.1 = x.1 ∨ e.2 = x.1
        · have hcomp : ∀ c : String, (c = e.1 ∨ c = e.2) →
              (c ∈ insert x.1 s1.1 ↔ c ∈ insert x.1 s2.1) := by
            intro c hce
            rw [Finset.mem_insert, Finset.mem_insert]
            by_cases hcx : c = x.1
            · simp [hcx]
            · have hck : c ∉ (x :: t).map (·.1) := by
                intro hc
                rw [List.map_cons] at hc
                rcases List.mem_cons.mp hc with h | h
                · exact hcx h
                · rcases hce with rfl | rfl
                  · exact he (Or.inl h)
                  · exact he (Or.inr h)
              rw [hI c hck]
          have hins := @recipeInserts_congr x.1 x.2 (insert x.1 s1.1) (insert x.1 s2.1) e
            (hcomp e.1 (Or.inl rfl)) (hcomp e.2 (Or.inr rfl))
          constructor
          · rintro (⟨_, hno⟩ | hi)
            · exact absurd hx hno
            · exact Or.inr (hins.mp hi)
          · rintro (⟨_, hno⟩ | hi)
            · exact absurd hx hno
            · exact Or.inr (hins.mpr hi)
        · have h1 : e ∈ s1.2 ↔ e ∈ s2.2 := by
            refine hE e ?_
            intro hc
            rw [List.map_cons] at hc
            rcases hc with h | h <;> rcases List.mem_cons.mp h with h2 | h2
            · exact hx (Or.inl h2)
            · exact he (Or.inl h2)
            · exact hx (Or.inr h2)
            · exact he (Or.inr h2)
          constructor
          · rintro (⟨hm, hno⟩ | hi)
            · exact Or.inl ⟨h1.mp hm, hno⟩
            · exact absurd (recipeInserts_endpoint hi) hx
          · rintro (⟨hm, hno⟩ | hi)
            · exact Or.inl ⟨h1.mpr hm, hno⟩
            · exact absurd (recipeInserts_endpoint hi) hx

theorem edgeFold_idem (p : List (String × ItemRec))
    (s : Finset String × Finset (String × String)) :
    (p.foldl edgeStep (p.foldl edgeStep s)).2 = (p.foldl edgeStep s).2 := by
  have hN : (p.foldl edgeStep ((p.foldl edgeStep s).1, ∅)).2
      = (p.foldl edgeStep (s.1, ∅)).2 := by
    refine edgeFold_congr p _ _ ?_ (fun e _ => Iff.rfl)
    intro k hk
    rw [edgeFold_fst]
    simp only [Finset.mem_union, List.mem_toFinset]
    constructor
    · rintro (h | h)
      · exact h
      · exact absurd h hk
    · exact fun h => Or.inl h
  rw [edgeFold_decompose p (p.foldl edgeStep s), hN,
    edgeFold_decompose p s]
  have hfil : ((s.2.filter (fun e => ¬(e.1 ∈ p.map (·.1) ∨ e.2 ∈ p.map (·.1)))
        ∪ (p.foldl edgeStep (s.1, ∅)).2).filter
          (fun e => ¬(e.1 ∈ p.map (·.1) ∨ e.2 ∈ p.map (·.1))))
      = s.2.filter (fun e => ¬(e.1 ∈ p.map (·.1) ∨ e.2 ∈ p.map (·.1))) := by
    ext e
    simp only [Finset.mem_filter, Finset.mem_union]
    constructor
    · rintro ⟨⟨hm, _⟩ | hN2, hk⟩
      · exact ⟨hm, hk⟩
      · rcases edgeFold_keys p _ e hN2 with ht | hf
        · exact absurd ht hk
        · exact absurd hf (Finset.not_mem_empty e)
    · rintro ⟨hm, hk⟩
      exact ⟨Or.inl ⟨hm, hk⟩, hk⟩
  rw [hfil]

theorem linkFold_idem (pairs : List (String × List String))
    (L : Finset (String × String)) :
    pairs.foldl linkStep (pairs.foldl linkStep L) = pairs.foldl linkStep L := by
  rw [linkFold_decompose pairs (pairs.foldl linkStep L), linkFold_decompose pairs L]
  ext l
  simp only [Finset.mem_union, Finset.mem_filter]
  constructor
  · rintro (⟨hLf | hN, hk⟩ | hN)
    · exact Or.inl hLf
    · exact Or.inr hN
    · exact Or.inr hN
  · rintro (⟨hL, hk⟩ | hN)
    · exact Or.inl ⟨Or.inl ⟨hL, hk⟩, hk⟩
    · exact Or.inr hN

theorem champsFold_valid (d0 : ChampDb) :
    ∀ (q : List (String × ChampRec)) (w : ChampDb) (e : Nat),
      (∀ x ∈ q, x.2.valid = true) →
      q.foldl (fun (acc : ChampDb × Nat) x =>
          if x.2.valid then (upsertChampion acc.1 x.1 x.2, acc.2) else (d0, acc.2 + 1))
        (w, e)
      = (q.foldl (fun a x => upsertChampion a x.1 x.2) w, e) := by
  intro q
  induction q with
  | nil => intro w e _; rfl
  | cons x t ih =>
      intro w e hv
      rw [List.foldl_cons, List.foldl_cons, if_pos (hv x (List.mem_cons_self x t))]
      exact ih _ _ (fun y hy => hv y (List.mem_cons_of_mem x hy))

theorem champsFold_ledger :
    ∀ (q : List (String × ChampRec)) (s : ChampDb),
      (q.foldl (fun a x => upsertChampion a x.1 x.2) s).ledger = s.ledger := by
  intro q
  induction q with
  | nil => intro _; rfl
  | cons x t ih => intro s; rw [List.foldl_cons]; exact ih _

theorem champsFold_champions :
    ∀ (q : List (String × ChampRec)) (s : ChampDb),
      (q.foldl (fun a x => upsertChampion a x.1 x.2) s).champions
        = s.champions ∪ (q.map (·.1)).toFinset := by
  intro q
  induction q with
  | nil => intro s; simp
  | cons x t ih =>
      intro s
      rw [List.foldl_cons, ih, List.map_cons, List.toFinset_cons]
      show insert x.1 s.champions ∪ _ = _
      ext a
      simp only [Finset.mem_union, Finset.mem_insert]
      tauto

theorem champsFold_tagNames :
    ∀ (q : List (String × ChampRec)) (s : ChampDb),
      (q.foldl (fun a x => upsertChampion a x.1 x.2) s).tagNames
        = s.tagNames ∪ (q.flatMap (fun x => x.2.tags)).toFinset := by
  intro q
  induction q with
  | nil => intro s; simp
  | cons x t ih =>
      intro s
      rw [List.foldl_cons, ih]
      rw [show (upsertChampion s x.1 x.2).tagNames = s.tagNames ∪ x.2.tags.toFinset from
        foldl_insert_eq_union _ _]
      rw [List.flatMap_cons, List.toFinset_append, Finset.union_assoc]

theorem champsFold_links :
    ∀ (q : List (String × ChampRec)) (s : ChampDb),
      (q.foldl (fun a x => upsertChampion a x.1 x.2) s).champTagLinks
        = (q.map (fun x => (x.1, x.2.tags))).foldl linkStep s.champTagLinks := by
  intro q
  induction q with
  | nil => intro _; rfl
  | cons x t ih =>
      intro s
      rw [List.foldl_cons, List.map_cons, List.foldl_cons]
      exact ih _

theorem itemsDbExt {a b : ItemsDb} (h1 : a.items = b.items)
    (h2 : a.tagNames = b.tagNames) (h3 : a.itemTagLinks = b.itemTagLinks)
    (h4 : a.edges = b.edges) (h5 : a.ledger = b.ledger) : a = b := by
  cases a; cases b; simp_all

theorem champDbExt {a b : ChampDb} (h1 : a.champions = b.champions)
    (h2 : a.tagNames = b.tagNames) (h3 : a.champTagLinks = b.champTagLinks)
    (h4 : a.ledger = b.ledger) : a = b := by
  cases a; cases b; simp_all

theorem updateItems_idem (p : List (String × ItemRec)) (v : String) (s : ItemsDb)
    (hnd : (s.ledger.map (·.rowId)).Nodup) :
    updateItems p v (updateItems p v s) = updateItems p v s := by
  have hfold1 : ((p.foldl updateItemsStep s).items, (p.foldl updateItemsStep s).edges)
      = p.foldl edgeStep (s.items, s.edges) := itemsFold_pair p s
  have hstart : ((updateItems p v s).items, (updateItems p v s).edges)
      = p.foldl edgeStep (s.items, s.edges) := hfold1
  have hfold2 : ((p.foldl updateItemsStep (updateItems p v s)).items,
        (p.foldl updateItemsStep (updateItems p v s)).edges)
      = p.foldl edgeStep (p.foldl edgeStep (s.items, s.edges)) := by
    rw [itemsFold_pair p (updateItems p v s), hstart]
  have hledger1 : (updateItems p v s).ledger = setCurrentVersion s.ledger v "items" := by
    show setCurrentVersion (p.foldl updateItemsStep s).ledger v "items" = _
    rw [itemsFold_ledger]
  refine itemsDbExt ?_ ?_ ?_ ?_ ?_
  · show (p.foldl updateItemsStep (updateItems p v s)).items
      = (p.foldl updateItemsStep s).items
    have h2 := congrArg Prod.fst hfold2
    have h1 := congrArg Prod.fst hfold1
    simp only at h2 h1
    rw [h2, h1, edgeFold_fst, edgeFold_fst]
    rw [Finset.union_assoc, Finset.union_self]
  · show (p.foldl updateItemsStep (updateItems p v s)).tagNames
      = (p.foldl updateItemsStep s).tagNames
    rw [itemsFold_tagNames, itemsFold_tagNames]
    rw [show (updateItems p v s).tagNames
        = s.tagNames ∪ (p.flatMap (fun x => x.2.tags)).toFinset from itemsFold_tagNames p s]
    rw [Finset.union_assoc, Finset.union_self]
  · show (p.foldl updateItemsStep (updateItems p v s)).itemTagLinks
      = (p.foldl updateItemsStep s).itemTagLinks
    rw [itemsFold_links, itemsFold_links]
    rw [show (updateItems p v s).itemTagLinks
        = (p.map (fun x => (x.1, x.2.tags))).foldl linkStep s.itemTagLinks from
      itemsFold_links p s]
    exact linkFold_idem _ _
  · show (p.foldl updateItemsStep (updateItems p v s)).edges
      = (p.foldl updateItemsStep s).edges
    have h2 := congrArg Prod.snd hfold2
    have h1 := congrArg Prod.snd hfold1
    simp only at h2 h1
    rw [h2, h1, edgeFold_idem]
  · show setCurrentVersion (p.foldl updateItemsStep (updateItems p v s)).ledger v "items"
      = setCurrentVersion (p.foldl updateItemsStep s).ledger v "items"
    rw [itemsFold_ledger, itemsFold_ledger, hledger1]
    exact setCurrentVersion_idem _ _ _ hnd

theorem updateChampions_run (q : List (String × ChampRec)) (v : String)
    (hvalid : ∀ x ∈ q, x.2.valid = true) (d : ChampDb) :
    updateChampions q v d
      = ({ q.foldl (fun a x => upsertChampion a x.1 x.2) d with
            ledger := setCurrentVersion
              (q.foldl (fun a x => upsertChampion a x.1 x.2) d).ledger v "champions" },
         0) := by
  unfold updateChampions
  rw [champsFold_valid d q d 0 hvalid]

theorem updateChampions_idem (q : List (String × ChampRec)) (v : String) (db0 : ChampDb)
    (hnd : (db0.ledger.map (·.rowId)).Nodup)
    (hvalid : ∀ x ∈ q, x.2.valid = true) :
    (updateChampions q v (updateChampions q v db0).1).1 = (updateChampions q v db0).1 := by
  have hc1 : (updateChampions q v db0).1
      = { q.foldl (fun a x => upsertChampion a x.1 x.2) db0 with
            ledger := setCurrentVersion
              (q.foldl (fun a x => upsertChampion a x.1 x.2) db0).ledger v "champions" } := by
    rw [updateChampions_run q v hvalid db0]
  rw [hc1, updateChampions_run q v hvalid]
  refine champDbExt ?_ ?_ ?_ ?_
  · show (q.foldl (fun a x => upsertChampion a x.1 x.2) _).champions
      = ({ q.foldl (fun a x => upsertChampion a x.1 x.2) db0 with
            ledger := setCurrentVersion
              (q.foldl (fun a x => upsertChampion a x.1 x.2) db0).ledger v "champions"
          } : ChampDb).champions
    rw [champsFold_champions]
    show (q.foldl (fun a x => upsertChampion a x.1 x.2) db0).champions ∪ _
      = (q.foldl (fun a x => upsertChampion a x.1 x.2) db0).champions
    rw [champsFold_champions, Finset.union_assoc, Finset.union_self, ← champsFold_champions]
  · show (q.foldl (fun a x => upsertChampion a x.1 x.2) _).tagNames = _
    rw [champsFold_tagNames]
    show (q.foldl (fun a x => upsertChampion a x.1 x.2) db0).tagNames ∪ _
      = (q.foldl (fun a x => upsertChampion a x.1 x.2) db0).tagNames
    rw [champsFold_tagNames, Finset.union_assoc, Finset.union_self, ← champsFold_tagNames]
  · show (q.foldl (fun a x => upsertChampion a x.1 x.2) _).champTagLinks = _
    rw [champsFold_links]
    show (q.map (fun x => (x.1, x.2.tags))).foldl linkStep
        (q.foldl (fun a x => upsertChampion a x.1 x.2) db0).champTagLinks
      = (q.foldl (fun a x => upsertChampion a x.1 x.2) db0).champTagLinks
    rw [champsFold_links, linkFold_idem, ← champsFold_links]
  · show setCurrentVersion (q.foldl (fun a x => upsertChampion a x.1 x.2) _).ledger
        v "champions" = _
    rw [champsFold_ledger]
    show setCurrentVersion
        (setCurrentVersion (q.foldl (fun a x => upsertChampion a x.1 x.2) db0).ledger
          v "champions") v "champions" = _
    rw [champsFold_ledger]
    exact setCurrentVersion_idem _ _ _ hnd

/-! ## Claim theorems -/

/-- Claim C9 (confirmed). On re-sync, stale sub-entities are deleted for runes
(a stored rune of the slot whose id is absent from the new payload is removed)
and for champion skins (a stored skin whose `skin_num` is absent is removed),
while champion spells are never pruned: every stored `(champion, slot)` spell
row survives the spell upserts, even when the payload carries fewer spells
than are stored. -/
theorem C9_subentity_pruning :
    (∀ (rows : List RuneRow) (slotId : Nat) (rd : List RuneData) (version : String)
        (r : RuneRow), r ∈ rows → r.slotId = slotId →
        r.id ∉ (rd.filter fun d => d.id != 0).map (·.id) →
        ∀ s ∈ createOrUpdateRunes rows slotId rd version, s.id ≠ r.id) ∧
    (∀ (rows : List SkinRow) (champ : String) (skins : List SkinData) (r : SkinRow),
        r ∈ rows → r.championId = champ → r.skinNum ∉ skins.map (·.num) →
        ∀ s ∈ updateChampionSkins rows champ skins,
          ¬(s.championId = champ ∧ s.skinNum = r.skinNum)) ∧
    (∀ (rows : List SpellRow) (champ : String) (spells : List SpellData) (r : SpellRow),
        r ∈ rows → ∃ s ∈ updateChampionSpells rows champ spells,
          s.championId = r.championId ∧ s.slot = r.slot) := by
  refine ⟨?_, ?_, ?_⟩
  · intro rows slotId rd version r hr hslot hid s hs
    intro hcon
    have hex : r.id ∈ (rows.filter fun x => x.slotId == slotId).map (·.id) :=
      List.mem_map_of_mem _ (List.mem_filter.mpr ⟨hr, by simp [hslot]⟩)
    unfold createOrUpdateRunes at hs
    have hpred := (List.mem_filter.mp hs).2
    rw [hcon] at hpred
    simp only [decide_eq_true_eq] at hpred
    exact hpred ⟨hex, hid⟩
  · intro rows champ skins r hr hch hnum s hs
    intro hcon
    have hex : r.skinNum ∈ (rows.filter fun x => x.championId == champ).map (·.skinNum) :=
      List.mem_map_of_mem _ (List.mem_filter.mpr ⟨hr, by simp [hch]⟩)
    unfold updateChampionSkins at hs
    have hpred := (List.mem_filter.mp hs).2
    simp only [decide_eq_true_eq] at hpred
    exact hpred ⟨hcon.1, hcon.2 ▸ hex, hcon.2 ▸ hnum⟩
  · intro rows champ spells r hr
    exact spellsFold_preserves champ _ rows r hr

/-- Claim C9, witness: a slot-5 rune (8124) absent from the payload is removed;
an Aatrox skin (num 1) absent from the payload is removed; the stored Aatrox R
spell survives a payload carrying a single spell. -/
theorem C9_witness :
    (∀ s ∈ createOrUpdateRunes [⟨8112, 5, "14.1.1"⟩, ⟨8124, 5, "14.1.1"⟩] 5
        [⟨8112⟩] "14.2.1", s.id ≠ 8124) ∧
    (∀ s ∈ updateChampionSkins
        [⟨"Aatrox", 0, "266000", "default"⟩, ⟨"Aatrox", 1, "266001", "Justicar"⟩]
        "Aatrox" [⟨"266000", 0, "default"⟩],
      ¬(s.championId = "Aatrox" ∧ s.skinNum = 1)) ∧
    (∃ s ∈ updateChampionSpells
        [⟨"Aatrox", SpellSlot.Q, "q0", "OldQ"⟩, ⟨"Aatrox", SpellSlot.R, "r0", "OldR"⟩]
        "Aatrox" [⟨"q1", "NewQ"⟩],
      s.championId = "Aatrox" ∧ s.slot = SpellSlot.R) := by
  refine ⟨?_, ?_, ?_⟩
  · intro s hs
    exact C9_subentity_pruning.1 _ 5 _ "14.2.1" ⟨8124, 5, "14.1.1"⟩
      (by decide) rfl (by decide) s hs
  · intro s hs
    have := C9_subentity_pruning.2.1 _ "Aatrox" _ ⟨"Aatrox", 1, "266001", "Justicar"⟩
      (by decide) rfl (by decide) s hs
    simpa using this
  · exact C9_subentity_pruning.2.2 _ "Aatrox" _ ⟨"Aatrox", SpellSlot.R, "r0", "OldR"⟩
      (by decide)

/-- Claim C6 (confirmed). For every entity family at most one `game_versions`
row is current at any observable point: `set_current_version` preserves the
invariant whether the target `(version, entity_type)` row exists (it is marked
current by primary-key update) or is created, and immediately afterwards
`get_current_db_version` for that family returns the version just set. -/
theorem C6_ledger_exclusivity (rows : List LedgerRow) (v et : String)
    (hnd : (rows.map (·.rowId)).Nodup)
    (hinv : ∀ f, countCurrent rows f ≤ 1) :
    (∀ f, countCurrent (setCurrentVersion rows v et) f ≤ 1) ∧
    getCurrentDbVersion (setCurrentVersion rows v et) et = some v := by
  have hndL1 : ((unsetCurrent rows et).map (·.rowId)).Nodup := by
    rw [unsetCurrent_map_rowId]; exact hnd
  have hclear : ∀ s ∈ unsetCurrent rows et, s.entityType = et → s.isCurrent = false :=
    fun s hs h => mem_unsetCurrent_not_current hs h
  cases hfr : findVersionRow (unsetCurrent rows et) v et with
  | some r =>
      obtain ⟨hrmem, hret, hrv⟩ := findVersionRow_spec hfr
      rw [setCurrentVersion_eq_mark hfr]
      refine ⟨fun f => ?_, getCurrent_after_mark hndL1 hrmem hret hrv hclear⟩
      by_cases hf : f = et
      · subst hf
        rw [countCurrent_mark_self hndL1 hrmem hret hclear]
      · rw [countCurrent_mark_ne hndL1 hrmem hret hf, countCurrent_unsetCurrent_ne rows hf]
        exact hinv f
  | none =>
      rw [setCurrentVersion_eq_append hfr]
      refine ⟨fun f => ?_, getCurrent_after_append hclear rfl rfl rfl⟩
      rw [countCurrent_append]
      by_cases hf : f = et
      · subst hf
        rw [countCurrent_unsetCurrent_self]
        have h1 : countCurrent [⟨freshId (unsetCurrent rows f), v, f, true⟩] f = 1 := by
          simp [countCurrent]
        rw [h1]
      · rw [countCurrent_unsetCurrent_ne rows hf]
        have h1 : countCurrent [⟨freshId (unsetCurrent rows et), v, et, true⟩] f = 0 := by
          have : (et == f) = false := by
            simp only [beq_eq_false_iff_ne, ne_eq]
            exact fun hc => hf hc.symm
          simp [countCurrent, this]
        rw [h1]
        exact hinv f

/-- Claim C6, witness: setting version `"14.2.1"` current for the `items`
family over a two-family ledger keeps at most one current row per family and
reads back the new version. -/
theorem C6_witness :
    (∀ f, countCurrent (setCurrentVersion
        [⟨1, "14.1.1", "items", true⟩, ⟨2, "14.1.1", "champions", true⟩]
        "14.2.1" "items") f ≤ 1) ∧
    getCurrentDbVersion (setCurrentVersion
        [⟨1, "14.1.1", "items", true⟩, ⟨2, "14.1.1", "champions", true⟩]
        "14.2.1" "items") "items" = some "14.2.1" :=
  C6_ledger_exclusivity _ "14.2.1" "items" (by decide) (fun f => by
    by_cases h1 : ("items" : String) = f <;> by_cases h2 : ("champions" : String) = f
    · exact absurd (h1.trans h2.symm) (by decide)
    · subst h1; decide
    · subst h2; decide
    · have e1 : ("items" == f) = false := by simp [h1]
      have e2 : ("champions" == f) = false := by simp [h2]
      simp [countCurrent, List.filter, e1, e2])

/-- Claim C1 (code bug). The claim states that after `update_items` syncs a
payload in which item `"3078"` declares `from: ["3057","3044","3051"]` and the
three components are present, the recipe read for `"3078"` lists exactly those
three components under `builds_from` and each component's `builds_into`
contains `"3078"`. The code does the opposite: `update_items` writes the rows
`(item_id = component, component_id = "3078")`, which the `Item` relationship
declarations read in the reverse direction, so `"3078"` ends with an empty
`builds_from`, the three components appear under its `builds_into`, each
component gets `"3078"` in its `builds_from`, and the depth-1 recipe tree of
`"3078"` has an empty component list. -/
theorem C1_update_items_reverses_recipe_direction :
    builtFrom trinityDb.edges "3078" = ∅ ∧
    builtFrom trinityDb.edges "3078" ≠ {"3057", "3044", "3051"} ∧
    buildsInto trinityDb.edges "3078" = {"3057", "3044", "3051"} ∧
    builtFrom trinityDb.edges "3057" = {"3078"} ∧
    buildsInto trinityDb.edges "3057" = ∅ ∧
    (getItemTree trinityDb.edges trinityDb.items "3078" 1).map treeComponentIds
      = some [] := by
  refine ⟨by decide, by decide, by decide, by decide, by decide, ?_⟩
  have h078 : builtFrom trinityDb.edges "3078" = ∅ := by decide
  have hmem : "3078" ∈ trinityDb.items := by decide
  simp [getItemTree, hmem, h078, treeComponentIds]

/-- Claim C7 (code bug). The claim states that when exactly one record of a
champion batch is malformed, all other champions — including those processed
before the malformed one — are upserted and present afterwards, with exactly
one logged error and no exception. In the code, the per-champion handler calls
`session.rollback()`, which discards all uncommitted work of the batch so far:
on the concrete batch Aatrox / Brand (malformed) / Caitlyn against an empty
store, only Caitlyn is present after the final commit, with one logged
error. -/
theorem C7_rollback_discards_prior_champions :
    (updateChampions champBatch "14.1.1" ⟨∅, ∅, ∅, []⟩).1.champions = {"Caitlyn"} ∧
    "Aatrox" ∉ (updateChampions champBatch "14.1.1" ⟨∅, ∅, ∅, []⟩).1.champions ∧
    (updateChampions champBatch "14.1.1" ⟨∅, ∅, ∅, []⟩).2 = 1 := by
  refine ⟨by decide, by decide, by decide⟩

/-- Claim C2 (confirmed). For every pair of items A and B in the synced batch
such that A's upstream record declares B in its `into` list, after
`process_item_recipes` completes, B's `built_from` contains A: the edge is
inserted directly in the first (rebuild) pass via
`item.builds_into.append(into_item)`. -/
theorem C2_into_declaration_yields_built_from_edge
    (allItems : List (String × ItemEntity)) (itemsData : List (String × ItemRec))
    (a b : String) (rec : ItemRec)
    (hrec : (a, rec) ∈ itemsData) (hb : b ∈ rec.into)
    (ha : (allItems.lookup a).isSome) (hbm : (allItems.lookup b).isSome) :
    a ∈ builtFromL (processItemRecipes allItems itemsData) b := by
  rw [processItemRecipes_eq_firstPass]
  exact mem_builtFromL.mpr (firstPass_mem hrec ha hbm hb)

/-- Claim C2, witness: Sheen (`"3057"`) declares `into: ["3078"]`; after the
passes, Trinity Force's `built_from` contains Sheen. -/
theorem C2_witness :
    "3057" ∈ builtFromL (processItemRecipes
      [("3057", ⟨[], some 2, some 700⟩), ("3078", ⟨[], some 3, some 3333⟩)]
      [("3057", { blankRec with into := ["3078"], goldTotal := 700, depth := some 2 })])
      "3078" :=
  C2_into_declaration_yields_built_from_edge _ _ "3057" "3078"
    { blankRec with into := ["3078"], goldTotal := 700, depth := some 2 }
    (by decide) (by decide) (by decide) (by decide)

/-- Claim C3, amended (corrected). For every item classified as record-mythic
with zero `built_from` components before the repair pass and at least one
reverse-index candidate, `built_from` is STILL EMPTY after
`process_item_recipes`: the repair pass can only link candidates present in
`all_items`, and every such candidate was already linked by the rebuild pass,
so a pre-repair orphan has only out-of-map candidates and gains nothing. -/
theorem C3_orphan_mythic_built_from_stays_empty
    (allItems : List (String × ItemEntity)) (itemsData : List (String × ItemRec))
    (P : String) (recP : ItemRec)
    (hP : itemsData.lookup P = some recP) (hmy : recordIsMythic recP = true)
    (hpre : builtFromL (firstPass allItems itemsData) P = [])
    (hcand : ∃ A recA, (A, recA) ∈ itemsData ∧ P ∈ recA.into) :
    builtFromL (processItemRecipes allItems itemsData) P = [] := by
  rw [processItemRecipes_eq_firstPass]
  exact hpre

/-- Claim C3, witness for the amended theorem, on the C3 scenario data. -/
theorem C3_witness :
    builtFromL (processItemRecipes c3AllItems c3ItemsData) "P" = [] :=
  C3_orphan_mythic_built_from_stays_empty c3AllItems c3ItemsData "P" c3recP
    (by decide) (by decide) (by decide) ⟨"A", c3recA, by decide, by decide⟩

/-- Claim C4, amended (corrected). The asymmetry-repair pass adds an edge only
for a product with zero recorded `built_from` edges (and then only from
candidates present in `all_items`), never for a mythic that already has edges;
since the rebuild pass already inserts every reverse-index edge whose
endpoints are among the entities, the repair pass never changes the edge set:
`process_item_recipes` returns exactly the rebuild pass's edges. -/
theorem C4_repair_pass_is_noop (allItems : List (String × ItemEntity))
    (itemsData : List (String × ItemRec)) :
    processItemRecipes allItems itemsData = firstPass allItems itemsData :=
  processItemRecipes_eq_firstPass allItems itemsData

/-- Claim C5, amended (corrected). For an orphan mythic — zero components
after the rebuild and repair passes, zero reverse-index candidates (so its
record's `from` list is empty and no same-truthy-tier item with components
exists; in the code the orphan case is handled by
`ensure_mythic_item_build_paths`, since the in-loop heuristic of
`process_item_recipes` is unreachable for zero-candidate mythics) — the
heuristic scans all other items with truthy tier ≤ 2 and truthy total cost
below HALF the mythic's total cost, ranks them by descending total cost,
greedily attaches up to the top 3, and stops early once the attached sum
exceeds 70% of the mythic's total cost. -/
theorem C5_orphan_mythic_heuristic
    (allItems : List (String × ItemEntity)) (itemsData : List (String × ItemRec))
    (P : String) (Pent : ItemEntity) (recP : ItemRec)
    (hnd : (allItems.map (·.1)).Nodup)
    (hP : allItems.lookup P = some Pent)
    (hmy : entityIsMythic Pent = true)
    (honly : ∀ x ∈ allItems, entityIsMythic x.2 = true → x.1 = P)
    (hrec : itemsData.lookup P = some recP)
    (hfrom : recP.from_ = [])
    (hpre : builtFromL (processItemRecipes allItems itemsData) P = [])
    (hsim : similarItems allItems P Pent (processItemRecipes allItems itemsData) = []) :
    builtFromL (bulkSyncRecipePhases allItems itemsData) P
      = specInferredComponentsHalf allItems P Pent := by
  have hmem : (P, Pent) ∈ allItems := lookup_mem hP
  have hfil := mythicFilter_eq hnd hmem hmy honly
  unfold bulkSyncRecipePhases ensureMythicItemBuildPaths
  rw [hfil]
  simp only [List.map_cons, List.map_nil, List.foldl_cons, List.foldl_nil]
  unfold ensureMythicStep
  simp only [hP, hrec, hpre, hfrom, hsim]
  rw [if_neg (by simp), if_neg (by simp), if_neg (by simp)]
  rw [foldl_congr_fun allItems (basicsBody_eq P Pent) [],
    foldl_append_if_eq_filter, List.nil_append]
  rw [greedy_builtFrom allItems P (goldOrZero Pent) _
      (processItemRecipes allItems itemsData) ?_]
  · have hzero : builtFromGoldSum allItems (processItemRecipes allItems itemsData) P = 0 := by
      unfold builtFromGoldSum
      rw [hpre]
      rfl
    rw [hpre, hzero, List.nil_append]
    rfl
  · intro y hy
    have hy1 : y ∈ sortByGoldDesc (allItems.filter fun x =>
        decide (¬x.1 = P ∧ truthyTierLE x.2.tier 2
          ∧ truthyGoldLTHalf x.2.totalGold Pent.totalGold)) := List.take_subset 3 _ hy
    have hy2 := mem_sortByGoldDesc.mp hy1
    have hy3 : y ∈ allItems := List.mem_of_mem_filter hy2
    exact lookup_eq_some_of_mem_nodup hnd (Prod.mk.eta ▸ hy3)

/-- Claim C5, witness for the amended theorem: on the C5 scenario the pipeline
and the amended greedy description both attach exactly `["B2"]`. -/
theorem C5_witness :
    builtFromL (bulkSyncRecipePhases c5AllItems c5ItemsData) "P"
      = specInferredComponentsHalf c5AllItems "P" c5entP :=
  C5_orphan_mythic_heuristic c5AllItems c5ItemsData "P" c5entP
    { blankRec with goldTotal := 3000, depth := some 3 }
    (by decide) (by decide) (by decide)
    (by decide) (by decide) (by decide) (by decide) (by decide)

/-- Claim C10, counterexample. The claim states that once `get_latest_version`
has successfully returned a version `v`, every later call on the same instance
returns `v` without a new HTTP request. The memoization guard is a Python
truthiness test, so after a successful call that returned the empty version
string, the next call issues a fetch again (third component `true`) and
returns whatever upstream now says. -/
theorem C10_counterexample :
    getLatestVersion ⟨none⟩ [""] = Except.ok ("", ⟨some ""⟩, true) ∧
    getLatestVersion ⟨some ""⟩ ["15.1.1"] = Except.ok ("15.1.1", ⟨some "15.1.1"⟩, true) ∧
    ("15.1.1" : String) ≠ "" :=
  ⟨rfl, rfl, by decide⟩

/-- Claim C10, amended: a successful `get_latest_version` call stores the
returned version in `_latest_version`, and once the stored version is
non-empty, every later call returns it unchanged without issuing an HTTP
request. -/
theorem C10_memoized_nonempty :
    (∀ (st st2 : ServiceState) (up : List String) (v : String) (fetched : Bool),
        getLatestVersion st up = Except.ok (v, st2, fetched) →
          st2.latestVersion = some v) ∧
    (∀ (v : String) (up : List String), v ≠ "" →
        getLatestVersion ⟨some v⟩ up = Except.ok (v, ⟨some v⟩, false)) := by
  constructor
  · intro st st2 up v fetched h
    unfold getLatestVersion at h
    split at h
    · rename_i htr
      cases hlv : st.latestVersion with
      | none => rw [hlv] at htr; cases htr
      | some s =>
          rw [hlv] at h
          simp only [Option.getD_some, Except.ok.injEq, Prod.mk.injEq] at h
          rw [← h.2.1, hlv, h.1]
    · cases up with
      | nil => cases h
      | cons w ws =>
          simp only [Except.ok.injEq, Prod.mk.injEq] at h
          rw [← h.2.1, h.1]
  · intro v up hv
    have htr : pyTruthyStr (some v) = true := by
      simp [pyTruthyStr, String.isEmpty_iff, hv]
    unfold getLatestVersion
    rw [if_pos htr]
    rfl

/-- Claim C10, witness for the amended theorem: with `"15.1.1"` memoized, a
call sees newer upstream data but returns the cached version without
fetching. -/
theorem C10_witness :
    getLatestVersion ⟨some "15.1.1"⟩ ["16.1.1"]
      = Except.ok ("15.1.1", ⟨some "15.1.1"⟩, false) :=
  C10_memoized_nonempty.2 "15.1.1" ["16.1.1"] (by decide)

/-- Claim C3, counterexample. The claim states that a record-mythic item with
zero `built_from` components before the repair pass and at least one
reverse-index candidate ends with a non-empty `built_from` after
`process_item_recipes`. In this concrete input, `"P"` is mythic (gold
3000 > 2500), has zero components after the rebuild pass, and `"A"` declares
`into: ["P"]` — yet `built_from` of `"P"` is still empty after
`process_item_recipes`, because the candidate is not among the passed
entities and the repair pass can only link entities from `all_items`. -/
theorem C3_counterexample :
    recordIsMythic c3recP = true ∧
    builtFromL (firstPass c3AllItems c3ItemsData) "P" = [] ∧
    ("A", c3recA) ∈ c3ItemsData ∧ "P" ∈ c3recA.into ∧
    builtFromL (processItemRecipes c3AllItems c3ItemsData) "P" = [] := by
  refine ⟨by decide, by decide, by decide, by decide, by decide⟩

/-- Claim C4, counterexample. The claim states that in the asymmetry-repair
pass, a mythic product with a non-empty reverse-index entry gets the missing
reverse-index edges added even when it already has some `built_from` edges. In
this concrete input, `"P"` is mythic, the reverse index maps `"P" ↦ ["A"]`,
and `"P"` already has the edge from `"X"` — but the repair pass requires an
empty `built_from` even for mythics, so `"A"` is never added. -/
theorem C4_counterexample :
    recordIsMythic c4recP = true ∧
    (buildsFromMap c4ItemsData).lookup "P" = some ["A"] ∧
    builtFromL (processItemRecipes c4AllItems c4ItemsData) "P" = ["X"] ∧
    "A" ∉ builtFromL (processItemRecipes c4AllItems c4ItemsData) "P" := by
  refine ⟨by decide, by decide, by decide, by decide⟩

/-- Claim C5, counterexample. The claim states that the heuristic for an
orphan mythic (zero components after the rebuild and repair passes, zero
reverse-index candidates) attaches, among other items of tier ≤ 2 ranked by
descending gold, the top 3 whose individual cost is below the mythic's total
cost, with a 70% early stop. On this input the claimed algorithm attaches
`["B1", "B2"]` (B1 costs 2000 < 3000), but the code
(`ensure_mythic_item_build_paths`, the pass that actually handles orphan
mythics) filters candidates at half the mythic's cost (2000 ≥ 1500), so the
pipeline attaches only `["B2"]`. -/
theorem C5_counterexample :
    entityIsMythic c5entP = true ∧
    builtFromL (processItemRecipes c5AllItems c5ItemsData) "P" = [] ∧
    (buildsFromMap c5ItemsData).lookup "P" = none ∧
    builtFromL (bulkSyncRecipePhases c5AllItems c5ItemsData) "P" = ["B2"] ∧
    specInferredComponents c5AllItems "P" 3000 = ["B1", "B2"] ∧
    (["B2"] : List String) ≠ ["B1", "B2"] := by
  refine ⟨by decide, by decide, by decide, by decide, by decide, by decide⟩

/-- Claim C8 (confirmed). Running a family sync twice in a row at the same
version leaves the store exactly as after one run, hence identical entity
counts, tag-link counts and recipe-edge counts, with no double-inserted
champion tag link, item tag link, recipe edge or entity row. For items the
second `update_items` run returns the state of the first unchanged (each
record's upsert re-targets the same row, its tag links and recipe edges are
deleted and re-inserted identically); for champions the second
`update_champions` run over a batch of well-formed records likewise returns
the first run's committed state. The ledger hypothesis says the
`game_versions` ids are distinct, as the primary key guarantees. -/
theorem C8_sync_idempotent (p : List (String × ItemRec)) (q : List (String × ChampRec))
    (v : String) (si : ItemsDb) (sc : ChampDb)
    (hndI : (si.ledger.map (·.rowId)).Nodup)
    (hndC : (sc.ledger.map (·.rowId)).Nodup)
    (hvalid : ∀ x ∈ q, x.2.valid = true) :
    updateItems p v (updateItems p v si) = updateItems p v si ∧
      (updateChampions q v (updateChampions q v sc).1).1 = (updateChampions q v sc).1 :=
  ⟨updateItems_idem p v si hndI, updateChampions_idem q v sc hndC hvalid⟩

/-- Claim C8, witness at the C1 items payload and a two-champion batch,
both synced into empty stores. -/
theorem C8_witness :
    updateItems trinityPayload "14.1.1"
        (updateItems trinityPayload "14.1.1" ⟨∅, ∅, ∅, ∅, []⟩)
      = updateItems trinityPayload "14.1.1" ⟨∅, ∅, ∅, ∅, []⟩ ∧
    (updateChampions c8Champs "14.1.1"
        (updateChampions c8Champs "14.1.1" ⟨∅, ∅, ∅, []⟩).1).1
      = (updateChampions c8Champs "14.1.1" ⟨∅, ∅, ∅, []⟩).1 :=
  C8_sync_idempotent trinityPayload c8Champs "14.1.1" ⟨∅, ∅, ∅, ∅, []⟩ ⟨∅, ∅, ∅, []⟩
    (by decide) (by decide) (by decide)

end LolExt
